import Mathlib

/-!
Verification of the commit-history walker of dulwich (file `dulwich/walk.py`
of the Javantea fork, which targets Python 3), together with the path-filter
and topological-reorder machinery it uses.

Modelling conventions:

* Byte strings and text strings are modelled as lists of natural numbers
  (their byte values / code points).  The fork decodes every changed path
  with `changed_path.decode('utf-8')` before comparing; on the ASCII inputs
  relevant here the decode maps a byte string to the identical code-point
  sequence, so the model uses one domain for both.  The one place where the
  Python 3 `bytes`/`str`/`int` distinction is observable — the comparison
  `changed_path[len(followed_path)] == b'/'[0]`, which compares a length-one
  `str` with the integer 47 — is modelled faithfully through the `PyVal`
  universe and its cross-type equality `pyEq`.
* Python exceptions are modelled with `Except`: `MissingCommitError`,
  bare `KeyError` (raised by `store[...]` and `set.remove`), `ValueError`,
  `IndexError` and `TypeError` each get a constructor.  Loops whose
  termination is not structural run on a generously computed fuel; running
  out of fuel is a distinct error value that a faithful run never produces.
* `heapq` (external to the repository) is modelled by a list kept sorted by
  key; ties are broken deterministically by insertion order, which is one of
  the deterministic tie-breaks the queue is allowed to use.
* The tree-diff functions `tree_changes` / `tree_changes_for_merge` and the
  rename detector live in `dulwich.diff_tree`, outside this repository; they
  are taken as parameters (`DiffCtx`), already closed over any rename
  detector, with the interface the walker relies on.
-/

namespace DulwichWalk

/-- A path, as the list of code points of its text form. -/
abbrev BStr := List Nat

/-- Helper for writing concrete paths. -/
def strB (s : String) : BStr := s.data.map Char.toNat

/-- A miniature universe of Python values, enough to state the dynamic-type
facts the walker's code depends on. -/
inductive PyVal where
  | int : Int → PyVal
  | str : BStr → PyVal
  | bytes : BStr → PyVal
deriving DecidableEq

/-- Python equality: values of different built-in types (such as a `str` and
an `int`) compare unequal rather than raising. -/
def pyEq : PyVal → PyVal → Bool
  | .int a, .int b => a == b
  | .str a, .str b => a == b
  | .bytes a, .bytes b => a == b
  | _, _ => false

/-- The Python 3 expression `b'/'[0]`: indexing a `bytes` object yields the
integer value of the byte, here 47. -/
def slashOrd : PyVal := .int 47

/-- Errors surfaced by the walk, plus a marker for fuel exhaustion of the
modelled loops (never produced on the runs considered here). -/
inductive WalkErr where
  | missingCommit : Nat → WalkErr
  | keyError : WalkErr
  | valueError : WalkErr
  | indexError : WalkErr
  | typeError : WalkErr
  | outOfFuel : WalkErr
deriving DecidableEq

/-- The loop of `Walker._path_matches` over the followed paths.  The changed
path `p` has already been decoded to text.  For each followed path: first the
equality test, then `startswith` plus the byte test on `p[len(s)]`;
indexing out of range would raise `IndexError`, and a `None` element of the
path set would make `startswith` raise `TypeError`.  After the decode the
indexed value is a length-one `str`, compared via `pyEq` with `b'/'[0]`. -/
def path_matches_loop (p : BStr) : List (Option BStr) → Except WalkErr Bool
  | [] => .ok false
  | some s :: rest =>
    if p = s then .ok true
    else if s.isPrefixOf p then
      match p.get? s.length with
      | none => .error .indexError
      | some c =>
        if pyEq (.str [c]) slashOrd then .ok true else path_matches_loop p rest
    else path_matches_loop p rest
  | none :: _ => .error .typeError

/-- `Walker._path_matches`: decode the changed path (identity in this model),
return `False` for `None`, otherwise scan the followed paths. -/
def path_matches (paths : List (Option BStr)) (changed_path : Option BStr) :
    Except WalkErr Bool :=
  match changed_path with
  | none => .ok false
  | some p => path_matches_loop p paths

/-- Change types of `dulwich.diff_tree`. -/
inductive ChangeType where
  | add | modify | delete | rename | copy | unchanged
deriving DecidableEq

/-- `RENAME_CHANGE_TYPES = (CHANGE_RENAME, CHANGE_COPY)`. -/
def RENAME_CHANGE_TYPES : List ChangeType := [.rename, .copy]

/-- One side of a `TreeChange` (path, mode, object id); all fields may be
absent. -/
structure TreeEntry where
  path : Option BStr
  mode : Option Nat
  sha : Option Nat
deriving DecidableEq

/-- A tree change record. -/
structure TreeChange where
  type : ChangeType
  old : TreeEntry
  new : TreeEntry
deriving DecidableEq

/-- Insert into a Python set (no effect when already present). -/
def insertSet {α : Type} [DecidableEq α] (a : α) (l : List α) : List α :=
  if a ∈ l then l else a :: l

/-- Python `set.remove`: raises `KeyError` when the element is absent. -/
def setRemove {α : Type} [DecidableEq α] (a : α) (l : List α) :
    Except WalkErr (List α) :=
  if a ∈ l then .ok (l.erase a) else .error .keyError

/-- `Walker._change_matches`.  A falsy (absent) change is rejected at once.
Otherwise: when the new path matches, under `follow` a rename/copy rewrites
the followed-path set (`add(old_path)` then `remove(new_path)`); when only
the old path matches the change still qualifies.  The possibly mutated path
set is returned alongside the decision. -/
def change_matches (follow : Bool) (paths : List (Option BStr))
    (change : Option TreeChange) :
    Except WalkErr (Bool × List (Option BStr)) :=
  match change with
  | none => .ok (false, paths)
  | some c =>
    match path_matches paths c.new.path with
    | .error e => .error e
    | .ok true =>
      if follow ∧ c.type ∈ RENAME_CHANGE_TYPES then
        match setRemove c.new.path (insertSet c.old.path paths) with
        | .error e => .error e
        | .ok paths2 => .ok (true, paths2)
      else .ok (true, paths)
    | .ok false =>
      match path_matches paths c.old.path with
      | .error e => .error e
      | .ok true => .ok (true, paths)
      | .ok false => .ok (false, paths)

/-- A commit as the walk sees it. -/
structure Commit where
  id : Nat
  parents : List Nat
  commit_time : Int
  tree : Nat
deriving DecidableEq

/-- The object store, a finite id-indexed collection of commits. -/
abbrev Store := List (Nat × Commit)

/-- First-match association lookup (Python dict / object-store indexing). -/
def alookup {β : Type} (i : Nat) : List (Nat × β) → Option β
  | [] => none
  | (k, v) :: r => if k = i then some v else alookup i r

/-- A well-formed (content-addressed) store maps each id to a commit
carrying that id. -/
def storeWF (store : Store) : Prop := ∀ p ∈ store, (p.2).id = p.1

/-- `WalkEntry`: the walker yields commits wrapped in entries; the tree
changes are recomputed on demand (the memoisation in `changes()` is
observationally the identity). -/
structure WalkEntry where
  commit : Commit
deriving DecidableEq

/-- The external tree-diff interface (`dulwich.diff_tree`), already closed
over the rename detector chosen at construction: a flat diff against an
optional parent tree, and a per-parent diff for merges whose inner lists may
contain `None` placeholders. -/
structure DiffCtx where
  tree_changes : Option Nat → Nat → List TreeChange
  tree_changes_for_merge : List Nat → Nat → List (List (Option TreeChange))

/-- The changes of an entry: a flat list for at most one parent, a
list-of-lists for a merge.  Parent trees are fetched with `store[...]`,
which raises `KeyError` on a missing id. -/
inductive EntryChanges where
  | flat : List TreeChange → EntryChanges
  | merge : List (List (Option TreeChange)) → EntryChanges
deriving DecidableEq

/-- `WalkEntry.changes()`. -/
def entry_changes (store : Store) (dctx : DiffCtx) (gp : Commit → List Nat)
    (commit : Commit) : Except WalkErr EntryChanges :=
  match gp commit with
  | [] => .ok (.flat (dctx.tree_changes none commit.tree))
  | [p] =>
    match alookup p store with
    | none => .error .keyError
    | some pc => .ok (.flat (dctx.tree_changes (some pc.tree) commit.tree))
  | ps => do
    let trees ← ps.mapM (fun p =>
      match alookup p store with
      | none => Except.error WalkErr.keyError
      | some pc => Except.ok pc.tree)
    .ok (.merge (dctx.tree_changes_for_merge trees commit.tree))

/-- The walker options that drive entry production (everything except
`order` and `reverse`, which only affect the final reordering, and
`max_entries`, which is passed separately so capped and uncapped runs share
the rest). -/
structure StreamOpts where
  includeIds : List Nat
  exclude : List Nat
  follow : Bool
  since : Option Int
  until_ : Option Int
  get_parents : Commit → List Nat

/-- Scan a merge inner list (the per-parent changes of one conflicted path),
threading the mutable path set, stopping at the first match. -/
def scan_inner (follow : Bool) (paths : List (Option BStr)) :
    List (Option TreeChange) → Except WalkErr (Bool × List (Option BStr))
  | [] => .ok (false, paths)
  | oc :: rest =>
    match change_matches follow paths oc with
    | .error e => .error e
    | .ok (true, paths1) => .ok (true, paths1)
    | .ok (false, paths1) => scan_inner follow paths1 rest

/-- Scan the outer list of a merge entry, stopping at the first inner list
that produced a match. -/
def scan_merge (follow : Bool) (paths : List (Option BStr)) :
    List (List (Option TreeChange)) → Except WalkErr (Bool × List (Option BStr))
  | [] => .ok (false, paths)
  | l :: rest =>
    match scan_inner follow paths l with
    | .error e => .error e
    | .ok (true, paths1) => .ok (true, paths1)
    | .ok (false, paths1) => scan_merge follow paths1 rest

/-- Scan the flat change list of a non-merge entry. -/
def scan_flat (follow : Bool) (paths : List (Option BStr)) :
    List TreeChange → Except WalkErr (Bool × List (Option BStr))
  | [] => .ok (false, paths)
  | c :: rest =>
    match change_matches follow paths (some c) with
    | .error e => .error e
    | .ok (true, paths1) => .ok (true, paths1)
    | .ok (false, paths1) => scan_flat follow paths1 rest

/-- `Walker._should_return`: date bounds, exclusion re-check against the
current (shared, mutable) excluded set, then the path filter; for merge
commits the change lists are scanned list by list and the first matching
change anywhere accepts the entry.  The fall-through `return None` of the
source is falsy and is modelled as `false`.  The possibly mutated path set
is returned alongside the decision. -/
def should_return (store : Store) (dctx : DiffCtx) (so : StreamOpts)
    (excluded : List Nat) (paths : Option (List (Option BStr)))
    (entry : WalkEntry) :
    Except WalkErr (Bool × Option (List (Option BStr))) :=
  let commit := entry.commit
  if (so.since.map (fun t => decide (commit.commit_time < t))).getD false then
    .ok (false, paths)
  else if (so.until_.map (fun t => decide (t < commit.commit_time))).getD false then
    .ok (false, paths)
  else if commit.id ∈ excluded then .ok (false, paths)
  else
    match paths with
    | none => .ok (true, none)
    | some ps =>
      match entry_changes store dctx so.get_parents commit with
      | .error e => .error e
      | .ok (.merge lists) =>
        match scan_merge so.follow ps lists with
        | .error e => .error e
        | .ok (b, ps1) => .ok (b, some ps1)
      | .ok (.flat cs) =>
        match scan_flat so.follow ps cs with
        | .error e => .error e
        | .ok (b, ps1) => .ok (b, some ps1)

/-- `_MAX_EXTRA_COMMITS = 5`: slack commits walked past a boundary. -/
def MAX_EXTRA_COMMITS : Int := 5

/-- The state of `_CommitTimeQueue`.  The `excluded` set is the one shared
with the `Walker`, so it lives here and the walker reads it from the queue
state. -/
structure QState where
  pq : List (Int × Commit)
  pq_set : List Nat
  seen : List Nat
  done : List Nat
  min_time : Option Int
  last : Option Commit
  extra_commits_left : Int
  is_finished : Bool
  excluded : List Nat
deriving DecidableEq

/-- `heapq.heappush` on the model heap: stable insertion sorted by key, so
the head is always a minimal key, i.e. a maximal commit time. -/
def pqInsert (x : Int × Commit) : List (Int × Commit) → List (Int × Commit)
  | [] => [x]
  | y :: ys => if x.1 < y.1 then x :: y :: ys else y :: pqInsert x ys

/-- `_CommitTimeQueue._push`: the store fetch happens first, unconditionally,
raising `MissingCommitError` for an absent id; only then is the id checked
against `pq_set` and `done` before inserting into the heap keyed by the
negated commit time. -/
def queue_push (store : Store) (st : QState) (commit_id : Nat) :
    Except WalkErr QState :=
  match alookup commit_id store with
  | none => .error (.missingCommit commit_id)
  | some commit =>
    if commit_id ∉ st.pq_set ∧ commit_id ∉ st.done then
      .ok { st with
        pq := pqInsert (-commit.commit_time, commit) st.pq,
        pq_set := insertSet commit_id st.pq_set,
        seen := insertSet commit_id st.seen }
    else .ok st

/-- The body of the `for parent in get_parents(commit)` loop inside
`_exclude_parents`: a parent that is seen but not yet excluded is fetched
(bare `KeyError` on a missing id) and pushed on the DFS stack; every parent
is added to `excluded`. -/
def exclude_parents_fold (store : Store) (seen : List Nat) :
    List Nat → List Nat → List Commit → Except WalkErr (List Nat × List Commit)
  | [], excluded, todo => .ok (excluded, todo)
  | p :: rest, excluded, todo =>
    if p ∉ excluded ∧ p ∈ seen then
      match alookup p store with
      | none => .error .keyError
      | some pc =>
        exclude_parents_fold store seen rest (insertSet p excluded) (pc :: todo)
    else exclude_parents_fold store seen rest (insertSet p excluded) todo

/-- The `while todo` loop of `_exclude_parents` (fuelled; each id is pushed
at most once since pushing it marks it excluded). -/
def exclude_parents_loop (store : Store) (gp : Commit → List Nat)
    (seen : List Nat) :
    Nat → List Nat → List Commit → Except WalkErr (List Nat)
  | 0, _, _ => .error .outOfFuel
  | _ + 1, excluded, [] => .ok excluded
  | fuel + 1, excluded, c :: todoRest =>
    match exclude_parents_fold store seen (gp c) excluded todoRest with
    | .error e => .error e
    | .ok (ex1, todo1) => exclude_parents_loop store gp seen fuel ex1 todo1

/-- `_CommitTimeQueue._exclude_parents`. -/
def exclude_parents (store : Store) (gp : Commit → List Nat) (st : QState)
    (commit : Commit) : Except WalkErr QState :=
  match exclude_parents_loop store gp st.seen (st.seen.length + 2)
      st.excluded [commit] with
  | .error e => .error e
  | .ok ex1 => .ok { st with excluded := ex1 }

/-- The `since` boundary test of the queue: `min_time is not None and
commit_time < min_time`. -/
def belowMin (mt : Option Int) (t : Int) : Bool :=
  match mt with
  | some m => decide (t < m)
  | none => false

/-- The `while self._pq` loop of `_CommitTimeQueue.next`: pop the newest
commit, skip it when done, push its parents, propagate exclusion, manage the
slack counter, and either return a `WalkEntry`, keep looping, or finish. -/
def queue_next_loop (store : Store) (gp : Commit → List Nat) :
    Nat → QState → Except WalkErr (QState × Option WalkEntry)
  | 0, _ => .error .outOfFuel
  | fuel + 1, st =>
    match st.pq with
    | [] => .ok ({ st with is_finished := true }, none)
    | (_, commit) :: pqRest =>
      let sha := commit.id
      match setRemove sha st.pq_set with
      | .error e => .error e
      | .ok pqs =>
        let st1 := { st with pq := pqRest, pq_set := pqs }
        if sha ∈ st1.done then
          queue_next_loop store gp fuel st1
        else
          let st2 := { st1 with done := insertSet sha st1.done }
          match (gp commit).foldlM (queue_push store) st2 with
          | .error e => .error e
          | .ok st3 =>
            match (if sha ∈ st3.excluded then exclude_parents store gp st3 commit
                   else .ok st3) with
            | .error e => .error e
            | .ok st4 =>
              let reset1 :=
                if sha ∈ st3.excluded then
                  match st4.pq with
                  | [] => true
                  | (_, n) :: _ =>
                    if st4.pq.all (fun qc => decide (qc.2.id ∈ st4.excluded)) then
                      match st4.last with
                      | some lc => if n.commit_time ≥ lc.commit_time then true
                                   else false
                      | none => false
                    else true
                else true
              let reset2 := if belowMin st4.min_time commit.commit_time then false
                            else reset1
              if reset2 then
                let st5 := { st4 with extra_commits_left := MAX_EXTRA_COMMITS }
                if sha ∈ st3.excluded then queue_next_loop store gp fuel st5
                else .ok ({ st5 with last := some commit }, some ⟨commit⟩)
              else
                let st5 := { st4 with
                  extra_commits_left := st4.extra_commits_left - 1 }
                if st5.extra_commits_left = 0 then
                  .ok ({ st5 with is_finished := true }, none)
                else if sha ∈ st3.excluded then queue_next_loop store gp fuel st5
                else .ok ({ st5 with last := some commit }, some ⟨commit⟩)

/-- Fuel for one `next()` call: the loop pops at most the current heap plus
every store id once. -/
def qfuel (store : Store) (st : QState) : Nat :=
  st.pq.length + store.length + 5

/-- `_CommitTimeQueue.next`: a finished queue answers `None` forever; both
exits of the loop (drained heap, exhausted slack) set `is_finished` before
returning `None`. -/
def queue_next (store : Store) (gp : Commit → List Nat) (st : QState) :
    Except WalkErr (QState × Option WalkEntry) :=
  if st.is_finished then .ok (st, none)
  else queue_next_loop store gp (qfuel store st) st

/-- Deduplicate a seed list into a model set (Python `set(exclude or [])`). -/
def dedupSet (l : List Nat) : List Nat :=
  l.foldl (fun s i => insertSet i s) []

/-- `_CommitTimeQueue.__init__`: push every include and exclude seed (so a
missing seed raises `MissingCommitError` during `Walker` construction). -/
def queue_init (store : Store) (so : StreamOpts) : Except WalkErr QState :=
  let excludedInit := dedupSet so.exclude
  let st0 : QState :=
    { pq := [], pq_set := [], seen := [], done := [],
      min_time := so.since, last := none,
      extra_commits_left := MAX_EXTRA_COMMITS, is_finished := false,
      excluded := excludedInit }
  (so.includeIds ++ excludedInit).foldlM (queue_push store) st0

/-- The order tokens. -/
def ORDER_DATE : String := "date"

/-- The topological order token. -/
def ORDER_TOPO : String := "topo"

/-- `ALL_ORDERS`. -/
def ALL_ORDERS : List String := [ORDER_DATE, ORDER_TOPO]

/-- The full constructor option set of `Walker`.  `rename_detector` records
whether a detector object was supplied (its diffing behaviour is part of
`DiffCtx`); `paths = []` models both `paths=None` and an empty iterable,
which the constructor normalises identically (`paths and set(paths) or
None`). -/
structure WalkerOpts where
  includeIds : List Nat
  exclude : List Nat
  order : String
  reverse : Bool
  max_entries : Option Int
  paths : List BStr
  follow : Bool
  rename_detector : Bool
  since : Option Int
  until_ : Option Int
  get_parents : Commit → List Nat

/-- The stream-relevant projection of the options. -/
def toStreamOpts (o : WalkerOpts) : StreamOpts :=
  { includeIds := o.includeIds, exclude := o.exclude, follow := o.follow,
    since := o.since, until_ := o.until_, get_parents := o.get_parents }

/-- `self.paths = paths and set(paths) or None`. -/
def normalize_paths (l : List BStr) : Option (List (Option BStr)) :=
  if l = [] then none
  else some (l.foldl (fun s p => insertSet (some p) s) [])

/-- The per-iteration state of `Walker`: the queue (owning the shared
excluded set), the output-delay buffer, the emission counter and the mutable
followed-path set. -/
structure WState where
  q : QState
  out_queue : List WalkEntry
  num_entries : Int
  paths : Option (List (Option BStr))

/-- `Walker.__init__`: the only eager option validation is the order-token
check (`ValueError`); afterwards the queue is built, which may raise
`MissingCommitError` for bad seeds.  A negative `max_entries` and any
combination of `follow` and `rename_detector` are accepted without error. -/
def walker_init (store : Store) (o : WalkerOpts) : Except WalkErr WState :=
  if o.order ∉ ALL_ORDERS then .error .valueError
  else
    match queue_init store (toStreamOpts o) with
    | .error e => .error e
    | .ok q => .ok { q := q, out_queue := [], num_entries := 0,
                     paths := normalize_paths o.paths }

/-- The `while` guard of `Walker._next`, negated: the cap is reached when
`max_entries` is set and `num_entries < max_entries` fails. -/
def capReached (maxE : Option Int) (n : Int) : Bool :=
  match maxE with
  | none => false
  | some k => decide (n ≥ k)

/-- The loop of `Walker._next`: pull from the queue into the delay buffer;
once the queue is exhausted or the buffer holds more than
`_MAX_EXTRA_COMMITS` entries, pop the front candidate and emit it if
`_should_return` accepts it (reading the excluded set as mutated by the
queue so far, and updating the followed-path set). -/
def walker_next_loop (store : Store) (dctx : DiffCtx) (so : StreamOpts)
    (maxE : Option Int) :
    Nat → WState → Except WalkErr (WState × Option WalkEntry)
  | 0, _ => .error .outOfFuel
  | fuel + 1, w =>
    if capReached maxE w.num_entries then .ok (w, none)
    else
      match queue_next store so.get_parents w.q with
      | .error e => .error e
      | .ok (q1, r) =>
        let w2 : WState :=
          match r with
          | some e => { w with q := q1, out_queue := w.out_queue ++ [e] }
          | none => { w with q := q1 }
        if r.isNone || Nat.blt 5 w2.out_queue.length then
          match w2.out_queue with
          | [] => .ok (w2, none)
          | e :: rest =>
            match should_return store dctx so w2.q.excluded w2.paths e with
            | .error er => .error er
            | .ok (b, ps1) =>
              let w3 : WState := { w2 with out_queue := rest, paths := ps1 }
              if b then
                .ok ({ w3 with num_entries := w3.num_entries + 1 }, some e)
              else walker_next_loop store dctx so maxE fuel w3
        else walker_next_loop store dctx so maxE fuel w2

/-- Fuel for one `_next` call. -/
def wfuel (store : Store) (w : WState) : Nat :=
  w.out_queue.length + 2 * store.length + w.q.pq.length + 12

/-- `Walker._next`. -/
def walker_next (store : Store) (dctx : DiffCtx) (so : StreamOpts)
    (maxE : Option Int) (w : WState) :
    Except WalkErr (WState × Option WalkEntry) :=
  walker_next_loop store dctx so maxE (wfuel store w) w

/-- `iter(self._next, None)`: collect entries until the first `None`. -/
def stream_loop (store : Store) (dctx : DiffCtx) (so : StreamOpts)
    (maxE : Option Int) :
    Nat → WState → Except WalkErr (List WalkEntry)
  | 0, _ => .error .outOfFuel
  | fuel + 1, w =>
    match walker_next store dctx so maxE w with
    | .error e => .error e
    | .ok (_, none) => .ok []
    | .ok (w1, some e) =>
      match stream_loop store dctx so maxE fuel w1 with
      | .error e2 => .error e2
      | .ok rest => .ok (e :: rest)

/-- Fuel for the whole stream (independent of `max_entries`, so a capped run
and an uncapped run start from the same budget). -/
def sfuel (store : Store) (w : WState) : Nat :=
  2 * store.length + w.q.pq.length + w.out_queue.length + 12

/-- The entry stream of a walk, before any reordering. -/
def walker_stream (store : Store) (dctx : DiffCtx) (so : StreamOpts)
    (maxE : Option Int) (w : WState) : Except WalkErr (List WalkEntry) :=
  stream_loop store dctx so maxE (sfuel store w) w

/-- Association update (`d[k] = v`). -/
def aset {β : Type} (i : Nat) (v : β) : List (Nat × β) → List (Nat × β)
  | [] => [(i, v)]
  | (k, w) :: r => if k = i then (i, v) :: r else (k, w) :: aset i v r

/-- Association removal (`dict.pop`). -/
def aerase {β : Type} (i : Nat) : List (Nat × β) → List (Nat × β)
  | [] => []
  | (k, w) :: r => if k = i then r else (k, w) :: aerase i r

/-- `num_children[p]`, a `defaultdict(int)` read. -/
def ncGet (nc : List (Nat × Int)) (i : Nat) : Int := (alookup i nc).getD 0

/-- Phase 1 of `_topo_reorder`: count, for every parent id, the entries that
list it as a parent. -/
def build_nc (gp : Commit → List Nat) (entries : List WalkEntry) :
    List (Nat × Int) :=
  entries.foldl
    (fun nc e => (gp e.commit).foldl (fun nc2 p => aset p (ncGet nc2 p + 1) nc2) nc)
    []

/-- The parent loop of the emit phase: decrement each parent's child count
and, when it reaches zero, wake the parent from `pending` onto the front of
`todo`. -/
def topo_parents_fold :
    List Nat → List WalkEntry → List (Nat × WalkEntry) → List (Nat × Int) →
    List WalkEntry × List (Nat × WalkEntry) × List (Nat × Int)
  | [], todo, pending, nc => (todo, pending, nc)
  | p :: rest, todo, pending, nc =>
    let nc1 := aset p (ncGet nc p - 1) nc
    if ncGet nc1 p = 0 then
      match alookup p pending with
      | some pe => topo_parents_fold rest (pe :: todo) (aerase p pending) nc1
      | none => topo_parents_fold rest todo pending nc1
    else topo_parents_fold rest todo pending nc1

/-- Phase 2 of `_topo_reorder`: pop the front entry; park it while it still
has unemitted children, otherwise release its satisfied parents and yield
it. -/
def topo_loop (gp : Commit → List Nat) :
    Nat → List WalkEntry → List (Nat × WalkEntry) → List (Nat × Int) →
    Except WalkErr (List WalkEntry)
  | 0, _, _, _ => .error .outOfFuel
  | _ + 1, [], _, _ => .ok []
  | fuel + 1, e :: todoRest, pending, nc =>
    if ncGet nc e.commit.id ≠ 0 then
      topo_loop gp fuel todoRest (aset e.commit.id e pending) nc
    else
      let tpn := topo_parents_fold (gp e.commit) todoRest pending nc
      match topo_loop gp fuel tpn.1 tpn.2.1 tpn.2.2 with
      | .error e2 => .error e2
      | .ok rest => .ok (e :: rest)

/-- `_topo_reorder` (each entry is popped at most twice, so `2n + 2` fuel
always suffices; this is proved below for the inputs a walk produces). -/
def topo_reorder (gp : Commit → List Nat) (entries : List WalkEntry) :
    Except WalkErr (List WalkEntry) :=
  topo_loop gp (2 * entries.length + 2) entries [] (build_nc gp entries)

/-- `Walker._reorder`: topological reordering for `ORDER_TOPO`, then
reversal when requested. -/
def walker_reorder (o : WalkerOpts) (l : List WalkEntry) :
    Except WalkErr (List WalkEntry) :=
  match (if o.order = ORDER_TOPO then topo_reorder o.get_parents l
         else .ok l) with
  | .error e => .error e
  | .ok l1 => .ok (if o.reverse then l1.reverse else l1)

/-- `Walker.__iter__`: construct, stream, reorder. -/
def walker_run (store : Store) (dctx : DiffCtx) (o : WalkerOpts) :
    Except WalkErr (List WalkEntry) :=
  match walker_init store o with
  | .error e => .error e
  | .ok w =>
    match walker_stream store dctx (toStreamOpts o) o.max_entries w with
    | .error e => .error e
    | .ok l => walker_reorder o l

/-! ### Concrete instances used by counterexamples and witnesses -/

/-- Does an `Except` hold a success value? -/
def isOkE {α : Type} : Except WalkErr α → Bool
  | .ok _ => true
  | .error _ => false

/-- Does an `Except` hold precisely a `ValueError`? -/
def isValueErr {α : Type} : Except WalkErr α → Bool
  | .error .valueError => true
  | _ => false

/-- A diff context producing no changes at all. -/
def dctxEmpty : DiffCtx :=
  { tree_changes := fun _ _ => [], tree_changes_for_merge := fun _ _ => [] }

/-- A commit constructor for the concrete scenarios (tree id = commit id + 10). -/
def mkC (i : Nat) (ps : List Nat) (t : Int) : Commit :=
  { id := i, parents := ps, commit_time := t, tree := i + 10 }

/-- Baseline options: defaults of `Walker.__init__`. -/
def defOpts : WalkerOpts :=
  { includeIds := [], exclude := [], order := ORDER_DATE, reverse := false,
    max_entries := none, paths := [], follow := false,
    rename_detector := false, since := none, until_ := none,
    get_parents := fun c => c.parents }

/-- Options with a negative `max_entries` and `follow` set without a
rename detector, for claim C3. -/
def c3opts : WalkerOpts :=
  { defOpts with max_entries := some (-1), follow := true }

/-- A queue state that already recorded commit 1 as done. -/
def c4state : QState :=
  { pq := [], pq_set := [], seen := [1], done := [1], min_time := none,
    last := none, extra_commits_left := MAX_EXTRA_COMMITS,
    is_finished := false, excluded := [] }

/-- A one-commit store for the C4 witness. -/
def c4store : Store := [(1, mkC 1 [] 10)]

/-- Store of the C1 counterexample: a merge commit 5 with parents 1 and 2. -/
def c1store : Store := [(1, mkC 1 [] 10), (2, mkC 2 [] 20), (5, mkC 5 [1, 2] 30)]

/-- A change touching path `f`. -/
def chgF : TreeChange :=
  ⟨ChangeType.modify, ⟨some (strB "f"), none, none⟩, ⟨some (strB "f"), none, none⟩⟩

/-- Diff context of the C1 counterexample: the merge diff of commit 5 has a
single conflicted path whose per-parent list carries a change for parent 1
and `None` for parent 2. -/
def c1dctx : DiffCtx :=
  { tree_changes := fun _ _ => [],
    tree_changes_for_merge := fun _ t => if t = 15 then [[some chgF, none]] else [] }

/-- Store of the C5 counterexample: root 1 (t=100) ← 2 (t=70) ← 3 (t=50). -/
def c5store : Store := [(1, mkC 1 [] 100), (2, mkC 2 [1] 70), (3, mkC 3 [2] 50)]

/-- Diff context of the C5 counterexample: commits 1 and 3 touch path `f`,
the intermediate commit 2 only touches `g`. -/
def c5dctx : DiffCtx :=
  { tree_changes := fun _ t =>
      if t = 11 then [⟨ChangeType.add, ⟨none, none, none⟩, ⟨some (strB "f"), none, none⟩⟩]
      else if t = 12 then [⟨ChangeType.modify, ⟨some (strB "g"), none, none⟩, ⟨some (strB "g"), none, none⟩⟩]
      else if t = 13 then [chgF]
      else [],
    tree_changes_for_merge := fun _ _ => [] }

/-- Options of the C5 counterexample: topological order, path filter `{f}`,
both 3 and the already-newer root 1 included. -/
def c5opts : WalkerOpts :=
  { defOpts with includeIds := [3, 1], order := ORDER_TOPO, paths := [strB "f"] }

/-- A linear three-commit store (spec scenario 1) for witnesses. -/
def linStore : Store := [(1, mkC 1 [] 10), (2, mkC 2 [1] 20), (3, mkC 3 [2] 30)]

/-- Options walking `linStore` from its head. -/
def linOpts : WalkerOpts := { defOpts with includeIds := [3] }

/-- A fresh, empty queue state. -/
def c8qstart : QState :=
  { pq := [], pq_set := [], seen := [], done := [], min_time := none,
    last := none, extra_commits_left := MAX_EXTRA_COMMITS,
    is_finished := false, excluded := [] }

/-- The drained version of `c8qstart`. -/
def c8qfin : QState := { c8qstart with is_finished := true }

/-- A walker state sitting on a finished queue with an empty buffer. -/
def c8w : WState :=
  { q := c8qfin, out_queue := [], num_entries := 0, paths := none }

/-- Number of times `x` occurs among the parents of the entries of `l`
(with multiplicity). -/
def childCount (gp : Commit → List Nat) (x : Nat) (l : List WalkEntry) : Nat :=
  (l.map (fun e => (gp e.commit).count x)).sum

/-- The values held in a pending map. -/
def pvals (pending : List (Nat × WalkEntry)) : List WalkEntry :=
  pending.map (fun kv => kv.2)

/-- Pop budget of one todo entry: an entry with unemitted children is popped
twice (parked and re-popped), otherwise once. -/
def topoWeight (nc : List (Nat × Int)) (e : WalkEntry) : Nat :=
  if ncGet nc e.commit.id = 0 then 1 else 2

/-- Remaining pop budget of a topological state. -/
def topoMu (todo : List WalkEntry) (pending : List (Nat × WalkEntry))
    (nc : List (Nat × Int)) : Nat :=
  pending.length + (todo.map (topoWeight nc)).sum

/-- The structural invariant of the reorder loop: the counters agree with
the child multiset of the remaining entries, pending keys are the ids of
their entries, and the remaining ids are distinct. -/
def topoInv (gp : Commit → List Nat) (todo : List WalkEntry)
    (pending : List (Nat × WalkEntry)) (nc : List (Nat × Int)) : Prop :=
  (∀ x : Nat, ncGet nc x = (childCount gp x (todo ++ pvals pending) : Int)) ∧
  (∀ kv ∈ pending, kv.1 = kv.2.commit.id) ∧
  ((pending.map (fun kv => kv.1)).Nodup) ∧
  ((todo ++ pvals pending).map (fun e => e.commit.id)).Nodup

/-- Parked entries always retain unemitted children. -/
def topoJ (pending : List (Nat × WalkEntry)) (nc : List (Nat × Int)) : Prop :=
  ∀ kv ∈ pending, 0 < ncGet nc kv.1

/-- A rank function witnessing acyclicity of the parent relation on a set
of entries. -/
def topoRk (gp : Commit → List Nat) (rank : Nat → Nat)
    (l : List WalkEntry) : Prop :=
  ∀ e ∈ l, ∀ p ∈ gp e.commit, rank p < rank e.commit.id

/-- Residency invariant of the queue: every heap entry is the store's own
commit for its id. -/
def qinv (store : Store) (st : QState) : Prop :=
  ∀ kc ∈ st.pq, alookup kc.2.id store = some kc.2

/-- Residency and buffer invariant of the walker: heap entries are store
commits, buffered entries are store commits already recorded as done, and
the buffered ids are distinct. -/
def winv (store : Store) (w : WState) : Prop :=
  qinv store w.q ∧
  (∀ e ∈ w.out_queue, alookup e.commit.id store = some e.commit ∧
    e.commit.id ∈ w.q.done) ∧
  (w.out_queue.map (fun e => e.commit.id)).Nodup

/-- The ids currently sitting in the delay buffer. -/
def bufIds (w : WState) : List Nat :=
  w.out_queue.map (fun e => e.commit.id)

/-! ### Path filter: claims C2, C9, C10 -/

/-- A proper prefix of a list is strictly shorter. -/
theorem isPrefixOf_ne_length_lt {s p : BStr} (hpre : s.isPrefixOf p = true)
    (hne : p ≠ s) : s.length < p.length := by
  have hp : s <+: p := by simpa [List.isPrefixOf_iff_prefix] using hpre
  rcases lt_or_eq_of_le hp.length_le with h | h
  · exact h
  · exact absurd (hp.eq_of_length h).symm hne

/-- The loop of `_path_matches` never raises `IndexError`: when the indexing
branch runs, the equality branch has already failed, so the changed path is
strictly longer than the followed path and the index is in bounds. -/
theorem path_matches_loop_no_indexError (paths : List (Option BStr)) (p : BStr) :
    path_matches_loop p paths ≠ .error .indexError := by
  induction paths with
  | nil => simp [path_matches_loop]
  | cons s rest ih =>
    cases s with
    | none => simp [path_matches_loop]
    | some s =>
      simp only [path_matches_loop]
      split
      · simp
      · split
        · next hne hpre =>
          have hlt : s.length < p.length := isPrefixOf_ne_length_lt hpre hne
          obtain ⟨c, hc⟩ : ∃ c, p.get? s.length = some c := by
            cases hget : p.get? s.length with
            | none => exact absurd (List.get?_eq_none.mp hget) (Nat.not_le_of_lt hlt)
            | some c => exact ⟨c, rfl⟩
          rw [hc]
          split
          · next heq => simp at heq
          · next heq =>
            split
            · simp
            · exact ih
        · exact ih

/-- Claim C9: `Walker._path_matches` never performs an out-of-bounds index
access.  Whenever the changed path starts with a followed path and the
equality branch was not taken, the changed path is strictly longer, so the
read at position `len(followed_path)` is in bounds and the predicate never
results in an `IndexError`. -/
theorem c9_path_matches_no_index_error (paths : List (Option BStr))
    (changed_path : Option BStr) :
    path_matches paths changed_path ≠ .error .indexError := by
  cases changed_path with
  | none => simp [path_matches]
  | some p => simpa [path_matches] using path_matches_loop_no_indexError paths p

/-- Claim C2 (code bug): under this Python 3 code, `_path_matches` decodes
the changed path to `str`, so `changed_path[len(followed_path)]` is a
length-one `str` which never equals the integer `b'/'[0]`; the claimed
subtree-prefix acceptance therefore never fires.  At the claim's own
example shape, `foo/bar` fails to match the followed set `{foo}` (the spec
says it must match), while exact equality still matches and `foo/b` still
does not. -/
theorem c2_prefix_branch_dead :
    path_matches [some (strB "foo")] (some (strB "foo/bar")) = .ok false ∧
    path_matches [some (strB "foo")] (some (strB "foo")) = .ok true ∧
    path_matches [some (strB "foo/b")] (some (strB "foo/bar")) = .ok false :=
  ⟨rfl, rfl, rfl⟩

/-- Claim C10: an absent (`None`, falsy) change — as occurs in a merge
entry's per-parent change lists — is rejected by `_change_matches` and
leaves the followed-path set untouched, for any value of `follow`. -/
theorem c10_none_change_no_match (follow : Bool) (paths : List (Option BStr)) :
    change_matches follow paths none = .ok (false, paths) := rfl

/-! ### Constructor validation: claim C3 -/

/-- `_push` never raises `ValueError`. -/
theorem queue_push_not_valueError (store : Store) (st : QState) (i : Nat) :
    isValueErr (queue_push store st i) = false := by
  unfold queue_push
  split
  · rfl
  · split <;> rfl

/-- Folding `_push` over a seed list never raises `ValueError`. -/
theorem foldlM_queue_push_not_valueError (l : List Nat) (store : Store)
    (st : QState) : isValueErr (l.foldlM (queue_push store) st) = false := by
  induction l generalizing st with
  | nil => rfl
  | cons x xs ih =>
    rw [List.foldlM_cons]
    cases h : queue_push store st x with
    | error e =>
      have hv := queue_push_not_valueError store st x
      rw [h] at hv
      exact hv
    | ok st1 => exact ih st1

/-- Claim C3 (amended): the only option validation `Walker.__init__`
performs eagerly is the order-token check; construction raises `ValueError`
exactly when the order token is unknown, regardless of `max_entries` sign or
any follow/rename combination. -/
theorem c3_amended_only_order_checked (store : Store) (o : WalkerOpts) :
    isValueErr (walker_init store o) = true ↔ o.order ∉ ALL_ORDERS := by
  unfold walker_init
  split
  · next h => simp [isValueErr, h]
  · next h =>
    have hv : isValueErr (queue_init store (toStreamOpts o)) = false := by
      unfold queue_init
      exact foldlM_queue_push_not_valueError _ _ _
    cases hq : queue_init store (toStreamOpts o) with
    | error e =>
      rw [hq] at hv
      cases e <;> simp_all [isValueErr]
    | ok q =>
      constructor
      · intro hc
        have hb : (false : Bool) = true := hc
        simp at hb
      · intro hc
        exact absurd hc h

/-- Claim C3 (counterexample): constructing a walker with `max_entries = -1`
and `follow` set without a rename detector succeeds — no error is raised at
construction, refuting the claim that a negative `max_entries` (or a
follow/rename conflict) is rejected eagerly. -/
theorem c3_counterexample : isOkE (walker_init ([] : Store) c3opts) = true := rfl

/-! ### Queue push: claim C4 -/

/-- Claim C4 (counterexample): `_push` performs the store fetch before the
`pq_set`/`done` membership test, so pushing an id that is already recorded
as done still raises `MissingCommitError` when the store lacks it — the
claim that no store fetch (and no error) happens for such ids is false. -/
theorem c4_counterexample :
    queue_push ([] : Store) c4state 1 = .error (.missingCommit 1) := rfl

/-- Claim C4 (amended): when the id is present in the store, pushing an id
that is already in `pq_set` or in `done` leaves the whole queue state — in
particular heap, `pq_set` and `seen` — unchanged and raises no error; the
store fetch itself, however, is unconditional. -/
theorem c4_amended_push_noop_when_queued (store : Store) (st : QState)
    (i : Nat) (c : Commit) (h1 : alookup i store = some c)
    (h2 : i ∈ st.pq_set ∨ i ∈ st.done) :
    queue_push store st i = .ok st := by
  unfold queue_push
  rw [h1]
  have hcond : ¬(i ∉ st.pq_set ∧ i ∉ st.done) := by tauto
  simp [hcond]

/-- Witness for C4: pushing the already-done commit 1 of the one-commit
store leaves the state untouched. -/
theorem c4_witness : queue_push c4store c4state 1 = .ok c4state :=
  c4_amended_push_noop_when_queued c4store c4state 1 (mkC 1 [] 10) rfl
    (Or.inr (by simp [c4state]))

/-! ### Merge filtering: claim C1 -/

/-- A change that does not match leaves the followed-path set unchanged
(the set is only rewritten inside the accepting rename branch). -/
theorem change_matches_false_paths (f : Bool) (ps ps' : List (Option BStr))
    (oc : Option TreeChange)
    (h : change_matches f ps oc = .ok (false, ps')) : ps' = ps := by
  cases oc with
  | none =>
    simp only [change_matches, Except.ok.injEq, Prod.mk.injEq, true_and] at h
    exact h.symm
  | some c =>
    simp only [change_matches] at h
    split at h
    · cases h
    · split at h
      · split at h
        · cases h
        · cases h
      · cases h
    · split at h
      · cases h
      · cases h
      · simp only [Except.ok.injEq, Prod.mk.injEq, true_and] at h
        exact h.symm

/-- Scanning an inner list that ends in rejection does not move the
followed-path set. -/
theorem scan_inner_false_paths (f : Bool) :
    ∀ (l : List (Option TreeChange)) (ps ps' : List (Option BStr)),
    scan_inner f ps l = .ok (false, ps') → ps' = ps := by
  intro l
  induction l with
  | nil =>
    intro ps ps' h
    simp only [scan_inner, Except.ok.injEq, Prod.mk.injEq, true_and] at h
    exact h.symm
  | cons oc rest ih =>
    intro ps ps' h
    simp only [scan_inner] at h
    split at h
    · cases h
    · cases h
    · next paths1 hc =>
      have h1 : paths1 = ps := change_matches_false_paths f ps paths1 oc hc
      rw [ih paths1 ps' h, h1]

/-- An inner-list scan accepts exactly when some change of the list matches
against the path set the scan started from. -/
theorem scan_inner_spec (f : Bool) :
    ∀ (l : List (Option TreeChange)) (ps ps' : List (Option BStr)) (b : Bool),
    scan_inner f ps l = .ok (b, ps') →
    (b = true ↔ ∃ oc ∈ l, ∃ q, change_matches f ps oc = .ok (true, q)) := by
  intro l
  induction l with
  | nil =>
    intro ps ps' b h
    simp only [scan_inner, Except.ok.injEq, Prod.mk.injEq] at h
    simp [← h.1]
  | cons oc rest ih =>
    intro ps ps' b h
    simp only [scan_inner] at h
    split at h
    · cases h
    · next paths1 hc =>
      simp only [Except.ok.injEq, Prod.mk.injEq] at h
      constructor
      · intro _
        exact ⟨oc, by simp, paths1, hc⟩
      · intro _
        exact h.1.symm
    · next paths1 hc =>
      have h1 : ps = paths1 := (change_matches_false_paths f ps paths1 oc hc).symm
      subst h1
      have hiff := ih ps ps' b h
      constructor
      · intro hb
        obtain ⟨oc2, hm, q, hq⟩ := hiff.mp hb
        exact ⟨oc2, by simp [hm], q, hq⟩
      · rintro ⟨oc2, hm, q, hq⟩
        rcases List.mem_cons.mp hm with heq | hm2
        · subst heq
          rw [hc] at hq
          cases hq
        · exact hiff.mpr ⟨oc2, hm2, q, hq⟩

/-- An outer merge scan accepts exactly when some change of some inner list
matches against the path set the scan started from: the source accepts at
the first match anywhere, not only at paths conflicting for every parent. -/
theorem scan_merge_spec (f : Bool) :
    ∀ (lists : List (List (Option TreeChange)))
      (ps ps' : List (Option BStr)) (b : Bool),
    scan_merge f ps lists = .ok (b, ps') →
    (b = true ↔ ∃ l ∈ lists, ∃ oc ∈ l, ∃ q,
      change_matches f ps oc = .ok (true, q)) := by
  intro lists
  induction lists with
  | nil =>
    intro ps ps' b h
    simp only [scan_merge, Except.ok.injEq, Prod.mk.injEq] at h
    simp [← h.1]
  | cons l rest ih =>
    intro ps ps' b h
    simp only [scan_merge] at h
    split at h
    · cases h
    · next paths1 hc =>
      simp only [Except.ok.injEq, Prod.mk.injEq] at h
      constructor
      · intro _
        obtain ⟨oc, hm, q, hq⟩ := (scan_inner_spec f l ps paths1 true hc).mp rfl
        exact ⟨l, by simp, oc, hm, q, hq⟩
      · intro _
        exact h.1.symm
    · next paths1 hc =>
      have h1 : ps = paths1 := (scan_inner_false_paths f l ps paths1 hc).symm
      subst h1
      have hiff := ih ps ps' b h
      constructor
      · intro hb
        obtain ⟨l2, hm, rest2⟩ := hiff.mp hb
        exact ⟨l2, by simp [hm], rest2⟩
      · rintro ⟨l2, hm, oc, hoc, q, hq⟩
        rcases List.mem_cons.mp hm with heq | hm2
        · subst heq
          have hcontra := (scan_inner_spec f l2 ps ps false hc).mpr
            ⟨oc, hoc, q, hq⟩
          cases hcontra
        · exact hiff.mpr ⟨l2, hm2, oc, hoc, q, hq⟩

/-- Claim C1 (counterexample): for the merge commit 5 whose only conflicted
path carries a change for parent 1 and `None` for parent 2, the entry passes
the path filter — a change matching in a single parent's change list already
qualifies the entry, refuting the must-match-every-parent claim. -/
theorem c1_counterexample :
    should_return c1store c1dctx (toStreamOpts defOpts) []
      (some [some (strB "f")]) ⟨mkC 5 [1, 2] 30⟩ =
      .ok (true, some [some (strB "f")]) := rfl

/-- Claim C1 (amended): for a merge commit considered under a path filter
(with trivially satisfied date bounds and no exclusion), the entry passes
the filter if and only if a change matching the filter appears in the
change list of at least one parent — the scan stops at the first match, and
matching for every parent is not required. -/
theorem c1_amended_merge_any_parent (store : Store) (dctx : DiffCtx)
    (so : StreamOpts) (excluded : List Nat) (ps : List (Option BStr))
    (entry : WalkEntry) (lists : List (List (Option TreeChange))) (b : Bool)
    (ps2 : Option (List (Option BStr)))
    (hsince : so.since = none) (huntil : so.until_ = none)
    (hexc : entry.commit.id ∉ excluded)
    (hch : entry_changes store dctx so.get_parents entry.commit =
      .ok (.merge lists))
    (hret : should_return store dctx so excluded (some ps) entry =
      .ok (b, ps2)) :
    b = true ↔ ∃ l ∈ lists, ∃ oc ∈ l, ∃ q,
      change_matches so.follow ps oc = .ok (true, q) := by
  unfold should_return at hret
  rw [hsince, huntil] at hret
  simp only [Option.map_none', Option.getD_none, Bool.false_eq_true,
    if_false, if_neg hexc, hch] at hret
  cases hs : scan_merge so.follow ps lists with
  | error e =>
    rw [hs] at hret
    cases hret
  | ok r =>
    rw [hs] at hret
    obtain ⟨b1, ps1⟩ := r
    simp only [Except.ok.injEq, Prod.mk.injEq] at hret
    rw [← hret.1]
    exact scan_merge_spec so.follow lists ps ps1 b1 hs

/-- Witness for C1: the amended equivalence instantiated at the concrete
merge store of the counterexample. -/
theorem c1_witness :
    (true : Bool) = true ↔ ∃ l ∈ [[some chgF, none]], ∃ oc ∈ l, ∃ q,
      change_matches (toStreamOpts defOpts).follow [some (strB "f")] oc =
        .ok (true, q) :=
  c1_amended_merge_any_parent c1store c1dctx (toStreamOpts defOpts) []
    [some (strB "f")] ⟨mkC 5 [1, 2] 30⟩ [[some chgF, none]] true
    (some [some (strB "f")]) rfl rfl (by simp) rfl rfl

/-! ### Exhaustion permanence: claim C8 -/

/-- Every `None` exit of the queue loop has set `is_finished` first. -/
theorem queue_next_loop_none_finished (store : Store) (gp : Commit → List Nat) :
    ∀ (fuel : Nat) (st st' : QState),
    queue_next_loop store gp fuel st = .ok (st', none) →
    st'.is_finished = true := by
  intro fuel
  induction fuel with
  | zero => intro st st' h; cases h
  | succ fuel ih =>
    intro st st' h
    simp only [queue_next_loop] at h
    repeat' (first
      | exact ih _ _ h
      | (cases h <;> rfl)
      | split at h)

/-- A finished queue answers `None` without changing state. -/
theorem queue_next_finished (store : Store) (gp : Commit → List Nat)
    (st : QState) (h : st.is_finished = true) :
    queue_next store gp st = .ok (st, none) := by
  unfold queue_next
  rw [if_pos h]

/-- Once `next()` answers `None`, the resulting state is finished and every
later call answers `None` with the state unchanged. -/
theorem queue_next_none_absorb (store : Store) (gp : Commit → List Nat)
    (st st' : QState) (h : queue_next store gp st = .ok (st', none)) :
    st'.is_finished = true ∧ queue_next store gp st' = .ok (st', none) := by
  unfold queue_next at h
  split at h
  · next hfin =>
    simp only [Except.ok.injEq, Prod.mk.injEq] at h
    rw [← h.1]
    exact ⟨hfin, queue_next_finished store gp st hfin⟩
  · have hf := queue_next_loop_none_finished store gp _ _ _ h
    exact ⟨hf, queue_next_finished store gp st' hf⟩

/-- Every `None` exit of `_next`'s loop leaves a state from which any later
call (with any positive fuel) still answers `None`, unchanged: the cap test
keeps failing, or the queue stays finished with an empty buffer. -/
theorem walker_next_loop_none_absorb (store : Store) (dctx : DiffCtx)
    (so : StreamOpts) (maxE : Option Int) :
    ∀ (fuel : Nat) (w w' : WState),
    walker_next_loop store dctx so maxE fuel w = .ok (w', none) →
    ∀ (fuel2 : Nat),
      walker_next_loop store dctx so maxE (fuel2 + 1) w' = .ok (w', none) := by
  intro fuel
  induction fuel with
  | zero => intro w w' h; cases h
  | succ fuel ih =>
    intro w w' h fuel2
    rw [walker_next_loop] at h
    split at h
    · next hcap =>
      cases h
      rw [walker_next_loop, if_pos hcap]
    · next hcap =>
      cases hq : queue_next store so.get_parents w.q with
      | error e => rw [hq] at h; cases h
      | ok pr =>
        rw [hq] at h
        obtain ⟨q1, r⟩ := pr
        cases r with
        | some e =>
          simp only [Option.isNone_some, Bool.false_or] at h
          split at h
          · split at h
            · next heq => simp at heq
            · next e2 rest heq =>
              split at h
              · cases h
              · next b ps1 hsr =>
                split at h
                · cases h
                · exact ih _ _ h fuel2
          · exact ih _ _ h fuel2
        | none =>
          have habs := (queue_next_none_absorb store so.get_parents w.q q1 hq).2
          simp only [Option.isNone_none, Bool.true_or, eq_self_iff_true,
            if_true] at h
          split at h
          · next heq =>
            cases h
            rw [walker_next_loop]
            rw [if_neg hcap]
            rw [habs]
            simp [heq]
          · next e2 rest heq =>
            split at h
            · cases h
            · next b ps1 hsr =>
              split at h
              · cases h
              · exact ih _ _ h fuel2

/-- Claim C8: exhaustion is permanent.  Once `_CommitTimeQueue.next()`
answers `None` (drained heap or spent slack counter), every later call
answers `None` with the state unchanged; and once `Walker._next` answers
`None` (cap reached, or finished queue with empty delay buffer), every
later call answers `None` with the state unchanged, so the iteration never
yields another entry. -/
theorem c8_exhaustion_permanent :
    (∀ (store : Store) (gp : Commit → List Nat) (st st' : QState),
      queue_next store gp st = .ok (st', none) →
      queue_next store gp st' = .ok (st', none)) ∧
    (∀ (store : Store) (dctx : DiffCtx) (so : StreamOpts) (maxE : Option Int)
      (w w' : WState),
      walker_next store dctx so maxE w = .ok (w', none) →
      walker_next store dctx so maxE w' = .ok (w', none)) := by
  constructor
  · intro store gp st st' h
    exact (queue_next_none_absorb store gp st st' h).2
  · intro store dctx so maxE w w' h
    unfold walker_next at h ⊢
    have habs := walker_next_loop_none_absorb store dctx so maxE _ _ _ h
    have hfe : wfuel store w' =
        (w'.out_queue.length + 2 * store.length + w'.q.pq.length + 11) + 1 := rfl
    rw [hfe]
    exact habs _

/-- Witness for C8: on the empty store, a drained queue keeps answering
`None`, and the walker state sitting on it keeps answering `None`. -/
theorem c8_witness :
    queue_next ([] : Store) (fun c => c.parents) c8qfin = .ok (c8qfin, none) ∧
    walker_next ([] : Store) dctxEmpty (toStreamOpts defOpts) none c8w =
      .ok (c8w, none) :=
  ⟨c8_exhaustion_permanent.1 [] (fun c => c.parents) c8qstart c8qfin (by rfl),
   c8_exhaustion_permanent.2 [] dctxEmpty (toStreamOpts defOpts) none c8w c8w
     (by rfl)⟩

/-! ### Reversal: claim C6 -/

/-- `_reorder` with `reverse` set returns exactly the reversal of what it
returns without it, for either order. -/
theorem walker_reorder_reverse (o : WalkerOpts) (l : List WalkEntry) :
    walker_reorder { o with reverse := true } l =
      Except.map List.reverse (walker_reorder { o with reverse := false } l) := by
  show (match (if o.order = ORDER_TOPO then topo_reorder o.get_parents l
               else .ok l : Except WalkErr (List WalkEntry)) with
        | .error e => .error e
        | .ok l1 => .ok l1.reverse) =
    Except.map List.reverse
      (match (if o.order = ORDER_TOPO then topo_reorder o.get_parents l
              else .ok l : Except WalkErr (List WalkEntry)) with
       | .error e => .error e
       | .ok l1 => .ok l1)
  cases (if o.order = ORDER_TOPO then topo_reorder o.get_parents l
         else .ok l : Except WalkErr (List WalkEntry)) with
  | error e => rfl
  | ok l1 => rfl

/-- Claim C6: for every store, diff context and option set, the walk with
`reverse = true` yields exactly the reversal of the walk with
`reverse = false` and all other options identical — the entry stream and
the topological pass never read the `reverse` flag, which only drives the
final reversal. -/
theorem c6_reverse_equals_reversed (store : Store) (dctx : DiffCtx)
    (o : WalkerOpts) :
    walker_run store dctx { o with reverse := true } =
      Except.map List.reverse
        (walker_run store dctx { o with reverse := false }) := by
  cases hi : walker_init store { o with reverse := false } with
  | error e =>
    have hi2 : walker_init store { o with reverse := true } = .error e := hi
    simp only [walker_run, hi, hi2, Except.map]
  | ok w =>
    have hi2 : walker_init store { o with reverse := true } = .ok w := hi
    cases hws : walker_stream store dctx
        (toStreamOpts { o with reverse := false })
        ({ o with reverse := false }).max_entries w with
    | error e =>
      have hws2 : walker_stream store dctx
          (toStreamOpts { o with reverse := true })
          ({ o with reverse := true }).max_entries w = .error e := hws
      simp only [walker_run, hi, hi2, hws, hws2, Except.map]
    | ok l =>
      have hws2 : walker_stream store dctx
          (toStreamOpts { o with reverse := true })
          ({ o with reverse := true }).max_entries w = .ok l := hws
      simp only [walker_run, hi, hi2, hws, hws2]
      exact walker_reorder_reverse o l

/-! ### Topological reordering: claim C5 (and length preservation for C7) -/

/-- Lookup after update. -/
theorem alookup_aset {β : Type} (i : Nat) (v : β) :
    ∀ (l : List (Nat × β)) (x : Nat),
    alookup x (aset i v l) = if i = x then some v else alookup x l := by
  intro l
  induction l with
  | nil =>
    intro x
    simp [aset, alookup]
  | cons kv r ih =>
    intro x
    obtain ⟨k, w⟩ := kv
    by_cases hk : k = i
    · subst hk
      simp only [aset, if_pos rfl, alookup]
      by_cases hx : k = x
      · subst hx
        simp
      · simp [alookup, hx]
    · simp only [aset, if_neg hk, alookup]
      by_cases hx : k = x
      · subst hx
        have hik : ¬ k = k → False := fun h => h rfl
        have hix : ¬ i = k := fun h => hk h.symm
        simp [hix]
      · simp [hx, ih x]

/-- Counter read after update. -/
theorem ncGet_aset (i : Nat) (v : Int) (l : List (Nat × Int)) (x : Nat) :
    ncGet (aset i v l) x = if i = x then v else ncGet l x := by
  unfold ncGet
  rw [alookup_aset]
  split <;> rfl

/-- `aerase` only drops entries. -/
theorem aerase_sublist {β : Type} (i : Nat) :
    ∀ (l : List (Nat × β)), List.Sublist (aerase i l) l := by
  intro l
  induction l with
  | nil => simp [aerase]
  | cons kv r ih =>
    obtain ⟨k, w⟩ := kv
    simp only [aerase]
    split
    · exact (List.sublist_cons_self _ _)
    · exact ih.cons₂ _

/-- A found key splits the association list, up to permutation. -/
theorem alookup_perm {β : Type} (i : Nat) :
    ∀ (l : List (Nat × β)) (v : β), alookup i l = some v →
    l.Perm ((i, v) :: aerase i l) := by
  intro l
  induction l with
  | nil => intro v h; cases h
  | cons kv r ih =>
    intro v h
    obtain ⟨k, w⟩ := kv
    simp only [alookup] at h
    by_cases hk : k = i
    · subst hk
      rw [if_pos rfl] at h
      cases h
      simp only [aerase, if_pos rfl]
      exact List.Perm.refl _
    · rw [if_neg hk] at h
      simp only [aerase, if_neg hk]
      exact ((ih v h).cons (k, w)).trans (List.Perm.swap _ _ _)

/-- Updating an absent key appends it. -/
theorem aset_eq_append {β : Type} (i : Nat) (v : β) :
    ∀ (l : List (Nat × β)), i ∉ l.map (fun kv => kv.1) →
    aset i v l = l ++ [(i, v)] := by
  intro l
  induction l with
  | nil => intro _; rfl
  | cons kv r ih =>
    intro h
    obtain ⟨k, w⟩ := kv
    simp only [List.map_cons, List.mem_cons] at h
    push_neg at h
    have hk : ¬ k = i := fun hh => h.1 hh.symm
    simp only [aset, if_neg hk, List.cons_append, List.cons.injEq, true_and]
    exact ih h.2

/-- `childCount` over an appended list. -/
theorem childCount_append (gp : Commit → List Nat) (x : Nat)
    (l1 l2 : List WalkEntry) :
    childCount gp x (l1 ++ l2) = childCount gp x l1 + childCount gp x l2 := by
  simp [childCount]

/-- `childCount` of a cons. -/
theorem childCount_cons (gp : Commit → List Nat) (x : Nat) (e : WalkEntry)
    (l : List WalkEntry) :
    childCount gp x (e :: l) = (gp e.commit).count x + childCount gp x l := by
  simp [childCount]

/-- `childCount` only depends on the multiset of entries. -/
theorem childCount_perm (gp : Commit → List Nat) (x : Nat)
    {l l' : List WalkEntry} (h : l.Perm l') :
    childCount gp x l = childCount gp x l' := by
  unfold childCount
  exact List.Perm.sum_eq (h.map _)

/-- A zero child count means no remaining entry lists `x` as a parent. -/
theorem childCount_eq_zero (gp : Commit → List Nat) (x : Nat)
    (l : List WalkEntry) (h : childCount gp x l = 0) :
    ∀ e ∈ l, x ∉ gp e.commit := by
  intro e he hmem
  induction l with
  | nil => cases he
  | cons a r ih =>
    rw [childCount_cons] at h
    rcases List.mem_cons.mp he with rfl | hr
    · have : (gp e.commit).count x = 0 := by omega
      rw [List.count_eq_zero] at this
      exact this hmem
    · exact ih (by omega) hr

/-- A positive child count exhibits an entry listing `x` as a parent. -/
theorem childCount_pos (gp : Commit → List Nat) (x : Nat)
    (l : List WalkEntry) (h : childCount gp x l ≠ 0) :
    ∃ e ∈ l, x ∈ gp e.commit := by
  induction l with
  | nil => simp [childCount] at h
  | cons a r ih =>
    rw [childCount_cons] at h
    by_cases ha : (gp a.commit).count x = 0
    · obtain ⟨e, he, hm⟩ := ih (by omega)
      exact ⟨e, List.mem_cons_of_mem a he, hm⟩
    · exact ⟨a, List.mem_cons_self a r, List.count_pos_iff.mp
        (Nat.pos_of_ne_zero ha)⟩

/-- Every nonempty list of naturals has a maximal element. -/
theorem exists_max_nat : ∀ (l : List Nat), l ≠ [] →
    ∃ m ∈ l, ∀ x ∈ l, x ≤ m := by
  intro l
  induction l with
  | nil => intro h; exact absurd rfl h
  | cons a r ih =>
    intro _
    by_cases hr : r = []
    · subst hr
      exact ⟨a, by simp, by simp⟩
    · obtain ⟨m, hm, hmax⟩ := ih hr
      by_cases hcmp : a ≤ m
      · exact ⟨m, List.mem_cons_of_mem a hm, by
          intro x hx
          rcases List.mem_cons.mp hx with rfl | hx2
          · exact hcmp
          · exact hmax x hx2⟩
      · exact ⟨a, List.mem_cons_self a r, by
          intro x hx
          rcases List.mem_cons.mp hx with rfl | hx2
          · exact Nat.le_refl _
          · exact Nat.le_trans (hmax x hx2) (Nat.le_of_not_le hcmp)⟩

/-- A successful lookup is a member. -/
theorem alookup_mem {β : Type} (i : Nat) :
    ∀ (l : List (Nat × β)) (v : β), alookup i l = some v → (i, v) ∈ l := by
  intro l
  induction l with
  | nil => intro v h; cases h
  | cons kv r ih =>
    intro v h
    obtain ⟨k, w⟩ := kv
    simp only [alookup] at h
    split at h
    · next hk =>
      cases h
      subst hk
      exact List.mem_cons_self _ _
    · exact List.mem_cons_of_mem _ (ih v h)

/-- A failed lookup means the key is absent. -/
theorem alookup_none_keys {β : Type} (i : Nat) :
    ∀ (l : List (Nat × β)), alookup i l = none → ∀ kv ∈ l, kv.1 ≠ i := by
  intro l
  induction l with
  | nil => intro _ kv hkv; cases hkv
  | cons kv0 r ih =>
    intro h kv hkv
    obtain ⟨k, w⟩ := kv0
    simp only [alookup] at h
    split at h
    · cases h
    · next hk =>
      rcases List.mem_cons.mp hkv with rfl | hr
      · exact hk
      · exact ih h kv hr

/-- With distinct keys, erasing a key removes it entirely. -/
theorem aerase_keys_not_mem {β : Type} (i : Nat) :
    ∀ (l : List (Nat × β)), ((l.map (fun kv => kv.1)).Nodup) →
    i ∉ (aerase i l).map (fun kv => kv.1) := by
  intro l
  induction l with
  | nil => intro _; simp [aerase]
  | cons kv r ih =>
    intro hnd
    obtain ⟨k, w⟩ := kv
    simp only [List.map_cons, List.nodup_cons] at hnd
    simp only [aerase]
    split
    · next hk =>
      subst hk
      exact hnd.1
    · next hk =>
      simp only [List.map_cons, List.mem_cons]
      rintro (rfl | hmem)
      · exact hk rfl
      · exact ih hnd.2 hmem

/-- Release step of the parent loop. -/
theorem topo_parents_fold_release (p : Nat) (rest : List Nat)
    (todo : List WalkEntry) (pending : List (Nat × WalkEntry))
    (nc : List (Nat × Int)) (pe : WalkEntry)
    (hcond : ncGet (aset p (ncGet nc p - 1) nc) p = 0)
    (hfound : alookup p pending = some pe) :
    topo_parents_fold (p :: rest) todo pending nc =
      topo_parents_fold rest (pe :: todo) (aerase p pending)
        (aset p (ncGet nc p - 1) nc) := by
  simp only [topo_parents_fold]
  rw [if_pos hcond, hfound]

/-- Zero-hit step with no pending entry to release. -/
theorem topo_parents_fold_skip (p : Nat) (rest : List Nat)
    (todo : List WalkEntry) (pending : List (Nat × WalkEntry))
    (nc : List (Nat × Int))
    (hcond : ncGet (aset p (ncGet nc p - 1) nc) p = 0)
    (hfound : alookup p pending = none) :
    topo_parents_fold (p :: rest) todo pending nc =
      topo_parents_fold rest todo pending (aset p (ncGet nc p - 1) nc) := by
  simp only [topo_parents_fold]
  rw [if_pos hcond, hfound]

/-- Nonzero step of the parent loop. -/
theorem topo_parents_fold_noz (p : Nat) (rest : List Nat)
    (todo : List WalkEntry) (pending : List (Nat × WalkEntry))
    (nc : List (Nat × Int))
    (hcond : ¬(ncGet (aset p (ncGet nc p - 1) nc) p = 0)) :
    topo_parents_fold (p :: rest) todo pending nc =
      topo_parents_fold rest todo pending (aset p (ncGet nc p - 1) nc) := by
  simp only [topo_parents_fold]
  rw [if_neg hcond]

/-- Full specification of the parent-decrement loop: counters drop by the
parent multiplicities; the remaining entries are only moved between
`pending` and the front of `todo`; the surviving pending entries form a
sublist and keep positive counters; released entries end non-positive. -/
theorem topo_parents_fold_spec :
    ∀ (ps : List Nat) (todo : List WalkEntry)
      (pending : List (Nat × WalkEntry)) (nc : List (Nat × Int)),
    (∀ kv ∈ pending, kv.1 = kv.2.commit.id) →
    ((pending.map (fun kv => kv.1)).Nodup) →
    (∀ kv ∈ pending, 0 < ncGet nc kv.1) →
    (∀ x, ncGet (topo_parents_fold ps todo pending nc).2.2 x =
        ncGet nc x - (ps.count x : Int)) ∧
    ((topo_parents_fold ps todo pending nc).1 ++
        pvals (topo_parents_fold ps todo pending nc).2.1).Perm
      (todo ++ pvals pending) ∧
    List.Sublist (topo_parents_fold ps todo pending nc).2.1 pending ∧
    (∀ kv ∈ (topo_parents_fold ps todo pending nc).2.1,
      0 < ncGet (topo_parents_fold ps todo pending nc).2.2 kv.1) ∧
    (∃ rel, (topo_parents_fold ps todo pending nc).1 = rel ++ todo ∧
      ∀ e ∈ rel, ncGet (topo_parents_fold ps todo pending nc).2.2
        e.commit.id ≤ 0) := by
  intro ps
  induction ps with
  | nil =>
    intro todo pending nc hK hknd hJ
    refine ⟨?_, ?_, ?_, ?_, ⟨[], by simp [topo_parents_fold], by simp⟩⟩
    · intro x
      simp [topo_parents_fold]
    · simp [topo_parents_fold]
    · simp [topo_parents_fold]
    · intro kv hkv
      simpa [topo_parents_fold] using hJ kv hkv
  | cons p rest ih =>
    intro todo pending nc hK hknd hJ
    have hset := ncGet_aset p (ncGet nc p - 1) nc
    by_cases hcond : ncGet (aset p (ncGet nc p - 1) nc) p = 0
    · cases hfound : alookup p pending with
      | some pe =>
        have hmem : (p, pe) ∈ pending := alookup_mem p pending pe hfound
        have hpe : p = pe.commit.id := hK _ hmem
        have hsub := aerase_sublist p pending
        have hK2 : ∀ kv ∈ aerase p pending, kv.1 = kv.2.commit.id :=
          fun kv hkv => hK kv (hsub.subset hkv)
        have hknd2 : ((aerase p pending).map (fun kv => kv.1)).Nodup :=
          hknd.sublist (hsub.map _)
        have hnotp : p ∉ (aerase p pending).map (fun kv => kv.1) :=
          aerase_keys_not_mem p pending hknd
        have hJ2 : ∀ kv ∈ aerase p pending,
            0 < ncGet (aset p (ncGet nc p - 1) nc) kv.1 := by
          intro kv hkv
          have hne : ¬ p = kv.1 := by
            intro he
            have h1 : kv.1 ∈ (aerase p pending).map (fun kv => kv.1) :=
              List.mem_map_of_mem _ hkv
            rw [← he] at h1
            exact hnotp h1
          rw [hset kv.1, if_neg hne]
          exact hJ kv (hsub.subset hkv)
        obtain ⟨iha, ihb, ihc, ihd, rel, ihe1, ihe2⟩ :=
          ih (pe :: todo) (aerase p pending) (aset p (ncGet nc p - 1) nc)
            hK2 hknd2 hJ2
        rw [topo_parents_fold_release p rest todo pending nc pe hcond hfound]
        refine ⟨?_, ?_, ihc.trans hsub, ihd, ⟨rel ++ [pe], ?_, ?_⟩⟩
        · intro x
          rw [iha x, hset x]
          by_cases hpx : p = x
          · subst hpx
            simp only [if_pos rfl, List.count_cons_self]
            push_cast
            omega
          · rw [if_neg hpx]
            rw [List.count_cons_of_ne (fun h => hpx h.symm)]
        · have hperm : pending.Perm ((p, pe) :: aerase p pending) :=
            alookup_perm p pending pe hfound
          have hpv : (pvals pending).Perm (pe :: pvals (aerase p pending)) := by
            unfold pvals
            simpa using hperm.map (fun kv => kv.2)
          refine ihb.trans ?_
          have h1 : (pe :: todo) ++ pvals (aerase p pending) =
              pe :: (todo ++ pvals (aerase p pending)) := by simp
          rw [h1]
          refine (List.perm_middle.symm).trans ?_
          exact (hpv.symm).append_left todo
        · rw [ihe1]
          simp
        · intro e he
          rcases List.mem_append.mp he with hrel | hpe2
          · exact ihe2 e hrel
          · have : e = pe := by simpa using hpe2
            subst this
            rw [← hpe, iha p]
            omega
      | none =>
        have hJ2 : ∀ kv ∈ pending,
            0 < ncGet (aset p (ncGet nc p - 1) nc) kv.1 := by
          intro kv hkv
          have hne : ¬ p = kv.1 :=
            fun he => (alookup_none_keys p pending hfound kv hkv) he.symm
          rw [hset kv.1, if_neg hne]
          exact hJ kv hkv
        obtain ⟨iha, ihb, ihc, ihd, rel, ihe1, ihe2⟩ :=
          ih todo pending (aset p (ncGet nc p - 1) nc) hK hknd hJ2
        rw [topo_parents_fold_skip p rest todo pending nc hcond hfound]
        refine ⟨?_, ihb, ihc, ihd, ⟨rel, ihe1, ihe2⟩⟩
        intro x
        rw [iha x, hset x]
        by_cases hpx : p = x
        · subst hpx
          simp only [if_pos rfl, List.count_cons_self]
          push_cast
          omega
        · rw [if_neg hpx]
          rw [List.count_cons_of_ne (fun h => hpx h.symm)]
    · have hJ2 : ∀ kv ∈ pending,
          0 < ncGet (aset p (ncGet nc p - 1) nc) kv.1 := by
        intro kv hkv
        rw [hset kv.1]
        by_cases hpk : p = kv.1
        · rw [if_pos hpk]
          rw [hset p] at hcond
          rw [if_pos rfl] at hcond
          have := hJ kv hkv
          rw [← hpk] at this
          omega
        · rw [if_neg hpk]
          exact hJ kv hkv
      obtain ⟨iha, ihb, ihc, ihd, rel, ihe1, ihe2⟩ :=
        ih todo pending (aset p (ncGet nc p - 1) nc) hK hknd hJ2
      rw [topo_parents_fold_noz p rest todo pending nc hcond]
      refine ⟨?_, ihb, ihc, ihd, ⟨rel, ihe1, ihe2⟩⟩
      intro x
      rw [iha x, hset x]
      by_cases hpx : p = x
      · subst hpx
        simp only [if_pos rfl, List.count_cons_self]
        push_cast
        omega
      · rw [if_neg hpx]
        rw [List.count_cons_of_ne (fun h => hpx h.symm)]

/-- Park step of the emit phase. -/
theorem topo_loop_park (gp : Commit → List Nat) (fuel : Nat)
    (todo : List WalkEntry) (pending : List (Nat × WalkEntry))
    (nc : List (Nat × Int)) (e : WalkEntry)
    (hcond : ncGet nc e.commit.id ≠ 0) :
    topo_loop gp (fuel + 1) (e :: todo) pending nc =
      topo_loop gp fuel todo (aset e.commit.id e pending) nc := by
  simp only [topo_loop]
  rw [if_pos hcond]

/-- Yield step of the emit phase. -/
theorem topo_loop_yield (gp : Commit → List Nat) (fuel : Nat)
    (todo : List WalkEntry) (pending : List (Nat × WalkEntry))
    (nc : List (Nat × Int)) (e : WalkEntry)
    (hcond : ¬ ncGet nc e.commit.id ≠ 0) :
    topo_loop gp (fuel + 1) (e :: todo) pending nc =
      (match topo_loop gp fuel
          (topo_parents_fold (gp e.commit) todo pending nc).1
          (topo_parents_fold (gp e.commit) todo pending nc).2.1
          (topo_parents_fold (gp e.commit) todo pending nc).2.2 with
       | .error e2 => .error e2
       | .ok rest => .ok (e :: rest)) := by
  simp only [topo_loop]
  rw [if_neg hcond]

/-- The emit loop only yields entries that are no longer parents of any
entry yielded later (claim C5's per-children guarantee), and every yielded
entry comes from the remaining multiset. -/
theorem topo_loop_pairwise (gp : Commit → List Nat) :
    ∀ (fuel : Nat) (todo : List WalkEntry) (pending : List (Nat × WalkEntry))
      (nc : List (Nat × Int)) (out : List WalkEntry),
    topoInv gp todo pending nc → topoJ pending nc →
    topo_loop gp fuel todo pending nc = .ok out →
    out.Pairwise (fun a b => a.commit.id ∉ gp b.commit) ∧
    ∀ e ∈ out, e ∈ todo ++ pvals pending := by
  intro fuel
  induction fuel with
  | zero => intro todo pending nc out _ _ h; cases h
  | succ fuel ih =>
    intro todo pending nc out hInv hJ h
    obtain ⟨hI, hK, hknd, hN⟩ := hInv
    cases todo with
    | nil =>
      simp only [topo_loop] at h
      cases h
      exact ⟨List.Pairwise.nil, by simp⟩
    | cons e todoRest =>
      by_cases hcond : ncGet nc e.commit.id ≠ 0
      · rw [topo_loop_park gp fuel todoRest pending nc e hcond] at h
        have heid : e.commit.id ∉ pending.map (fun kv => kv.1) := by
          intro hkey
          obtain ⟨kv, hkv, hkeq⟩ := List.mem_map.mp hkey
          have hid : kv.2.commit.id = e.commit.id := by rw [← hK kv hkv, hkeq]
          have hmm : e.commit.id ∈
              (pvals pending).map (fun x => x.commit.id) := by
            rw [← hid]
            exact List.mem_map_of_mem _ (List.mem_map_of_mem _ hkv)
          have hN2 := hN
          simp only [List.cons_append, List.map_cons, List.nodup_cons,
            List.map_append, List.mem_append] at hN2
          exact hN2.1 (Or.inr hmm)
        have haset : aset e.commit.id e pending =
            pending ++ [(e.commit.id, e)] := aset_eq_append _ _ _ heid
        have hperm1 : ((e :: todoRest) ++ pvals pending).Perm
            (todoRest ++ pvals (aset e.commit.id e pending)) := by
          rw [haset]
          have h2 : pvals (pending ++ [(e.commit.id, e)]) =
              pvals pending ++ [e] := by simp [pvals]
          rw [h2, ← List.append_assoc]
          have h3 := List.perm_append_singleton e (todoRest ++ pvals pending)
          simpa using h3.symm
        have hI2 : ∀ x, ncGet nc x = (childCount gp x
            (todoRest ++ pvals (aset e.commit.id e pending)) : Int) := by
          intro x
          rw [hI x, childCount_perm gp x hperm1]
        have hK2 : ∀ kv ∈ pending ++ [(e.commit.id, e)],
            kv.1 = kv.2.commit.id := by
          intro kv hkv
          rcases List.mem_append.mp hkv with h1 | h2
          · exact hK kv h1
          · have : kv = (e.commit.id, e) := by simpa using h2
            subst this
            rfl
        have hK2a : ∀ kv ∈ aset e.commit.id e pending,
            kv.1 = kv.2.commit.id := by
          rw [haset]
          exact hK2
        have hknd2 : ((aset e.commit.id e pending).map
            (fun kv => kv.1)).Nodup := by
          rw [haset]
          simp only [List.map_append, List.map_cons, List.map_nil]
          rw [List.nodup_append]
          refine ⟨hknd, List.nodup_singleton _, ?_⟩
          intro a ha hb
          simp only [List.mem_singleton] at hb
          subst hb
          exact heid ha
        have hN2 : ((todoRest ++ pvals (aset e.commit.id e pending)).map
            (fun x => x.commit.id)).Nodup :=
          ((hperm1.map (fun x => x.commit.id)).nodup_iff).mp hN
        have hJ2 : topoJ (aset e.commit.id e pending) nc := by
          rw [haset]
          intro kv hkv
          rcases List.mem_append.mp hkv with h1 | h2
          · exact hJ kv h1
          · have : kv = (e.commit.id, e) := by simpa using h2
            subst this
            have hge : 0 ≤ ncGet nc e.commit.id := by
              rw [hI e.commit.id]
              exact Int.natCast_nonneg _
            show 0 < ncGet nc e.commit.id
            omega
        obtain ⟨hp, hmem⟩ := ih todoRest (aset e.commit.id e pending) nc _
          ⟨hI2, hK2a, hknd2, hN2⟩ hJ2 h
        refine ⟨hp, ?_⟩
        intro x hx
        exact hperm1.symm.subset (hmem x hx)
      · have hcond0 : ncGet nc e.commit.id = 0 := not_not.mp hcond
        rw [topo_loop_yield gp fuel todoRest pending nc e hcond] at h
        cases hrec : topo_loop gp fuel
            (topo_parents_fold (gp e.commit) todoRest pending nc).1
            (topo_parents_fold (gp e.commit) todoRest pending nc).2.1
            (topo_parents_fold (gp e.commit) todoRest pending nc).2.2 with
        | error e2 => rw [hrec] at h; cases h
        | ok rest =>
          rw [hrec] at h
          cases h
          obtain ⟨fa, fb, fc, fd, rel, fe1, fe2⟩ :=
            topo_parents_fold_spec (gp e.commit) todoRest pending nc hK hknd hJ
          have hN3 : ((todoRest ++ pvals pending).map
              (fun x => x.commit.id)).Nodup := by
            have hh := hN
            simp only [List.cons_append, List.map_cons,
              List.nodup_cons] at hh
            exact hh.2
          have hI3 : ∀ x,
              ncGet (topo_parents_fold (gp e.commit) todoRest pending nc).2.2 x =
              (childCount gp x
                ((topo_parents_fold (gp e.commit) todoRest pending nc).1 ++
                  pvals (topo_parents_fold (gp e.commit) todoRest
                    pending nc).2.1) : Int) := by
            intro x
            rw [fa x, hI x, childCount_perm gp x fb]
            have hcc : childCount gp x ((e :: todoRest) ++ pvals pending) =
                (gp e.commit).count x +
                  childCount gp x (todoRest ++ pvals pending) := by
              simp only [List.cons_append]
              exact childCount_cons gp x e _
            rw [hcc]
            push_cast
            ring
          have hK3 : ∀ kv ∈ (topo_parents_fold (gp e.commit) todoRest
              pending nc).2.1, kv.1 = kv.2.commit.id :=
            fun kv hkv => hK kv (fc.subset hkv)
          have hknd3 := hknd.sublist (fc.map (fun kv => kv.1))
          have hN4 : (((topo_parents_fold (gp e.commit) todoRest
              pending nc).1 ++ pvals (topo_parents_fold (gp e.commit)
                todoRest pending nc).2.1).map
              (fun x => x.commit.id)).Nodup :=
            ((fb.map (fun x => x.commit.id)).nodup_iff).mpr hN3
          obtain ⟨hp, hmem⟩ := ih _ _ _ _ ⟨hI3, hK3, hknd3, hN4⟩ fd hrec
          have hz : childCount gp e.commit.id
              ((e :: todoRest) ++ pvals pending) = 0 := by
            have hh := hI e.commit.id
            rw [hcond0] at hh
            exact_mod_cast hh.symm
          constructor
          · refine List.Pairwise.cons ?_ hp
            intro b hb
            have hb2 : b ∈ todoRest ++ pvals pending :=
              fb.subset (hmem b hb)
            exact childCount_eq_zero gp e.commit.id _ hz b
              (by simp only [List.cons_append]
                  exact List.mem_cons_of_mem _ hb2)
          · intro x hx
            rcases List.mem_cons.mp hx with rfl | hxr
            · simp
            · have hx2 : x ∈ todoRest ++ pvals pending :=
                fb.subset (hmem x hxr)
              simp only [List.cons_append, List.mem_cons]
              exact Or.inr hx2

/-- Parking preserves the loop invariants; the remaining multiset is only
rearranged. -/
theorem topo_park_inv (gp : Commit → List Nat) (e : WalkEntry)
    (todoRest : List WalkEntry) (pending : List (Nat × WalkEntry))
    (nc : List (Nat × Int))
    (hInv : topoInv gp (e :: todoRest) pending nc) (hJ : topoJ pending nc)
    (hcond : ncGet nc e.commit.id ≠ 0) :
    topoInv gp todoRest (aset e.commit.id e pending) nc ∧
    topoJ (aset e.commit.id e pending) nc ∧
    ((e :: todoRest) ++ pvals pending).Perm
      (todoRest ++ pvals (aset e.commit.id e pending)) ∧
    aset e.commit.id e pending = pending ++ [(e.commit.id, e)] := by
  obtain ⟨hI, hK, hknd, hN⟩ := hInv
  have heid : e.commit.id ∉ pending.map (fun kv => kv.1) := by
    intro hkey
    obtain ⟨kv, hkv, hkeq⟩ := List.mem_map.mp hkey
    have hid : kv.2.commit.id = e.commit.id := by rw [← hK kv hkv, hkeq]
    have hmm : e.commit.id ∈ (pvals pending).map (fun x => x.commit.id) := by
      rw [← hid]
      exact List.mem_map_of_mem _ (List.mem_map_of_mem _ hkv)
    have hN2 := hN
    simp only [List.cons_append, List.map_cons, List.nodup_cons,
      List.map_append, List.mem_append] at hN2
    exact hN2.1 (Or.inr hmm)
  have haset : aset e.commit.id e pending =
      pending ++ [(e.commit.id, e)] := aset_eq_append _ _ _ heid
  have hperm1 : ((e :: todoRest) ++ pvals pending).Perm
      (todoRest ++ pvals (aset e.commit.id e pending)) := by
    rw [haset]
    have h2 : pvals (pending ++ [(e.commit.id, e)]) =
        pvals pending ++ [e] := by simp [pvals]
    rw [h2, ← List.append_assoc]
    have h3 := List.perm_append_singleton e (todoRest ++ pvals pending)
    simpa using h3.symm
  refine ⟨⟨?_, ?_, ?_, ?_⟩, ?_, hperm1, haset⟩
  · intro x
    rw [hI x, childCount_perm gp x hperm1]
  · rw [haset]
    intro kv hkv
    rcases List.mem_append.mp hkv with h1 | h2
    · exact hK kv h1
    · have : kv = (e.commit.id, e) := by simpa using h2
      subst this
      rfl
  · rw [haset]
    simp only [List.map_append, List.map_cons, List.map_nil]
    rw [List.nodup_append]
    refine ⟨hknd, List.nodup_singleton _, ?_⟩
    intro a ha hb
    simp only [List.mem_singleton] at hb
    subst hb
    exact heid ha
  · exact ((hperm1.map (fun x => x.commit.id)).nodup_iff).mp hN
  · rw [haset]
    intro kv hkv
    rcases List.mem_append.mp hkv with h1 | h2
    · exact hJ kv h1
    · have : kv = (e.commit.id, e) := by simpa using h2
      subst this
      have hge : 0 ≤ ncGet nc e.commit.id := by
        rw [hI e.commit.id]
        exact Int.natCast_nonneg _
      show 0 < ncGet nc e.commit.id
      omega

/-- Yielding preserves the loop invariants; the yielded entry leaves the
multiset, and the released entries end with zero counters. -/
theorem topo_yield_inv (gp : Commit → List Nat) (e : WalkEntry)
    (todoRest : List WalkEntry) (pending : List (Nat × WalkEntry))
    (nc : List (Nat × Int))
    (hInv : topoInv gp (e :: todoRest) pending nc) (hJ : topoJ pending nc) :
    topoInv gp (topo_parents_fold (gp e.commit) todoRest pending nc).1
      (topo_parents_fold (gp e.commit) todoRest pending nc).2.1
      (topo_parents_fold (gp e.commit) todoRest pending nc).2.2 ∧
    topoJ (topo_parents_fold (gp e.commit) todoRest pending nc).2.1
      (topo_parents_fold (gp e.commit) todoRest pending nc).2.2 ∧
    ((topo_parents_fold (gp e.commit) todoRest pending nc).1 ++
      pvals (topo_parents_fold (gp e.commit) todoRest pending nc).2.1).Perm
      (todoRest ++ pvals pending) ∧
    (∃ rel, (topo_parents_fold (gp e.commit) todoRest pending nc).1 =
        rel ++ todoRest ∧
      ∀ x ∈ rel, ncGet (topo_parents_fold (gp e.commit) todoRest
        pending nc).2.2 x.commit.id ≤ 0) ∧
    (∀ x, ncGet (topo_parents_fold (gp e.commit) todoRest pending nc).2.2 x =
      ncGet nc x - ((gp e.commit).count x : Int)) := by
  obtain ⟨hI, hK, hknd, hN⟩ := hInv
  obtain ⟨fa, fb, fc, fd, rel, fe1, fe2⟩ :=
    topo_parents_fold_spec (gp e.commit) todoRest pending nc hK hknd hJ
  have hN3 : ((todoRest ++ pvals pending).map (fun x => x.commit.id)).Nodup := by
    have hh := hN
    simp only [List.cons_append, List.map_cons, List.nodup_cons] at hh
    exact hh.2
  refine ⟨⟨?_, ?_, ?_, ?_⟩, fd, fb, ⟨rel, fe1, fe2⟩, fa⟩
  · intro x
    rw [fa x, hI x, childCount_perm gp x fb]
    have hcc : childCount gp x ((e :: todoRest) ++ pvals pending) =
        (gp e.commit).count x + childCount gp x (todoRest ++ pvals pending) := by
      simp only [List.cons_append]
      exact childCount_cons gp x e _
    rw [hcc]
    push_cast
    ring
  · exact fun kv hkv => hK kv (fc.subset hkv)
  · exact hknd.sublist (fc.map (fun kv => kv.1))
  · exact ((fb.map (fun x => x.commit.id)).nodup_iff).mpr hN3

/-- Sum of a weighting that is constantly one. -/
theorem sum_map_one {α : Type} (f : α → Nat) :
    ∀ (l : List α), (∀ x ∈ l, f x = 1) → (l.map f).sum = l.length := by
  intro l
  induction l with
  | nil => intro _; rfl
  | cons a r ih =>
    intro h
    simp only [List.map_cons, List.sum_cons, List.length_cons,
      h a (List.mem_cons_self a r), ih (fun x hx => h x (List.mem_cons_of_mem a hx))]
    omega

/-- With acyclic parents (witnessed by a rank function), distinct ids and
enough fuel, the emit loop succeeds and yields every remaining entry —
`_topo_reorder` drops nothing. -/
theorem topo_loop_length (gp : Commit → List Nat) (rank : Nat → Nat) :
    ∀ (fuel : Nat) (todo : List WalkEntry) (pending : List (Nat × WalkEntry))
      (nc : List (Nat × Int)),
    topoInv gp todo pending nc → topoJ pending nc →
    topoRk gp rank (todo ++ pvals pending) →
    topoMu todo pending nc + 1 ≤ fuel →
    ∃ out, topo_loop gp fuel todo pending nc = .ok out ∧
      out.length = todo.length + pending.length := by
  intro fuel
  induction fuel with
  | zero =>
    intro todo pending nc _ _ _ hfuel
    omega
  | succ fuel ih =>
    intro todo pending nc hInv hJ hRk hfuel
    cases todo with
    | nil =>
      cases hpend : pending with
      | nil => exact ⟨[], by simp [topo_loop], by simp⟩
      | cons kv pl =>
        exfalso
        obtain ⟨hI, hK, hknd, hN⟩ := hInv
        subst hpend
        have hpv : pvals (kv :: pl) ≠ [] := by simp [pvals]
        have hne : (pvals (kv :: pl)).map (fun v => rank v.commit.id) ≠ [] := by
          simpa using hpv
        obtain ⟨m, hm, hmax⟩ := exists_max_nat _ hne
        obtain ⟨v, hv, hvm⟩ := List.mem_map.mp hm
        have hv2 := hv
        simp only [pvals] at hv2
        obtain ⟨kv2, hkv2, hkv2v⟩ := List.mem_map.mp hv2
        have hkey : kv2.1 = v.commit.id := by rw [hK kv2 hkv2, hkv2v]
        have hpos : 0 < ncGet nc kv2.1 := hJ kv2 hkv2
        have hcc : childCount gp kv2.1 ([] ++ pvals (kv :: pl)) ≠ 0 := by
          have hh := hI kv2.1
          intro hz
          rw [hz] at hh
          omega
        obtain ⟨c, hc, hcp⟩ := childCount_pos gp kv2.1 _ hcc
        have hlt : rank kv2.1 < rank c.commit.id := hRk c hc kv2.1 hcp
        have hle : rank c.commit.id ≤ m := by
          refine hmax _ (List.mem_map_of_mem _ ?_)
          simpa using hc
        rw [hkey, hvm] at hlt
        omega
    | cons e todoRest =>
      by_cases hcond : ncGet nc e.commit.id ≠ 0
      · obtain ⟨hInv2, hJ2, hperm1, haset⟩ :=
          topo_park_inv gp e todoRest pending nc hInv hJ hcond
        have hRk2 : topoRk gp rank
            (todoRest ++ pvals (aset e.commit.id e pending)) :=
          fun x hx => hRk x (hperm1.symm.subset hx)
        have hmu : topoMu todoRest (aset e.commit.id e pending) nc + 1 =
            topoMu (e :: todoRest) pending nc := by
          have hw : topoWeight nc e = 2 := by
            unfold topoWeight
            rw [if_neg hcond]
          simp only [topoMu, haset, List.length_append, List.length_cons,
            List.length_nil, List.map_cons, List.sum_cons, hw]
          omega
        obtain ⟨out, hout, hlen⟩ := ih todoRest (aset e.commit.id e pending)
          nc hInv2 hJ2 hRk2 (by omega)
        refine ⟨out, ?_, ?_⟩
        · rw [topo_loop_park gp fuel todoRest pending nc e hcond]
          exact hout
        · rw [hlen, haset]
          simp only [List.length_append, List.length_cons, List.length_nil]
          omega
      · have hcond0 : ncGet nc e.commit.id = 0 := not_not.mp hcond
        obtain ⟨hInv2, hJ2, hperm2, hrelpack, hfa⟩ :=
          topo_yield_inv gp e todoRest pending nc hInv hJ
        obtain ⟨rel, hrel1, hrel2⟩ := hrelpack
        have hRk2 : topoRk gp rank
            ((topo_parents_fold (gp e.commit) todoRest pending nc).1 ++
              pvals (topo_parents_fold (gp e.commit) todoRest
                pending nc).2.1) := by
          intro x hx
          refine hRk x ?_
          have hx2 := hperm2.subset hx
          simp only [List.cons_append]
          exact List.mem_cons_of_mem _ hx2
        have hIcast : ∀ x, 0 ≤ ncGet
            (topo_parents_fold (gp e.commit) todoRest pending nc).2.2 x := by
          intro x
          rw [hInv2.1 x]
          exact Int.natCast_nonneg _
        have hrelw : ∀ x ∈ rel, topoWeight
            (topo_parents_fold (gp e.commit) todoRest pending nc).2.2 x = 1 := by
          intro x hx
          have h1 := hrel2 x hx
          have h2 := hIcast x.commit.id
          have hz : ncGet (topo_parents_fold (gp e.commit) todoRest
              pending nc).2.2 x.commit.id = 0 := le_antisymm h1 h2
          unfold topoWeight
          rw [if_pos hz]
        have hsum_rel : (rel.map (topoWeight
            (topo_parents_fold (gp e.commit) todoRest pending nc).2.2)).sum =
            rel.length := sum_map_one _ rel hrelw
        have hwle : ∀ x ∈ todoRest, topoWeight
            (topo_parents_fold (gp e.commit) todoRest pending nc).2.2 x ≤
            topoWeight nc x := by
          intro x hx
          by_cases hz : ncGet nc x.commit.id = 0
          · have hz2 : ncGet (topo_parents_fold (gp e.commit) todoRest
                pending nc).2.2 x.commit.id = 0 := by
              have ha := hfa x.commit.id
              have hb := hIcast x.commit.id
              omega
            unfold topoWeight
            rw [if_pos hz, if_pos hz2]
          · unfold topoWeight
            rw [if_neg hz]
            split <;> omega
        have hsum_rest : (todoRest.map (topoWeight
            (topo_parents_fold (gp e.commit) todoRest pending nc).2.2)).sum ≤
            (todoRest.map (topoWeight nc)).sum := List.sum_le_sum hwle
        have hlen_eq : (topo_parents_fold (gp e.commit) todoRest
            pending nc).2.1.length + rel.length = pending.length := by
          have hl := hperm2.length_eq
          simp only [List.length_append, hrel1, pvals, List.length_map] at hl
          omega
        have hmuy : topoMu (topo_parents_fold (gp e.commit) todoRest
            pending nc).1 (topo_parents_fold (gp e.commit) todoRest
            pending nc).2.1 (topo_parents_fold (gp e.commit) todoRest
            pending nc).2.2 + 1 ≤ topoMu (e :: todoRest) pending nc := by
          have hw : topoWeight nc e = 1 := by
            unfold topoWeight
            rw [if_pos hcond0]
          simp only [topoMu, hrel1, List.map_append, List.sum_append,
            List.map_cons, List.sum_cons, hw, hsum_rel]
          omega
        obtain ⟨out, hout, hlen⟩ := ih _ _ _ hInv2 hJ2 hRk2 (by omega)
        refine ⟨e :: out, ?_, ?_⟩
        · rw [topo_loop_yield gp fuel todoRest pending nc e hcond, hout]
        · simp only [List.length_cons, hlen, hrel1, List.length_append]
          omega

/-- The inner counting fold of phase 1. -/
theorem ncGet_inc_fold (x : Nat) :
    ∀ (ps : List Nat) (nc : List (Nat × Int)),
    ncGet (ps.foldl (fun nc2 p => aset p (ncGet nc2 p + 1) nc2) nc) x =
      ncGet nc x + (ps.count x : Int) := by
  intro ps
  induction ps with
  | nil => intro nc; simp
  | cons p rest ih =>
    intro nc
    simp only [List.foldl_cons]
    rw [ih, ncGet_aset]
    by_cases hpx : p = x
    · subst hpx
      rw [if_pos rfl, List.count_cons_self]
      push_cast
      ring
    · rw [if_neg hpx, List.count_cons_of_ne (fun h => hpx h.symm)]

/-- Phase 1 of `_topo_reorder` computes exactly the child multiset. -/
theorem build_nc_fold (gp : Commit → List Nat) (x : Nat) :
    ∀ (entries : List WalkEntry) (nc : List (Nat × Int)),
    ncGet (entries.foldl (fun nc e => (gp e.commit).foldl
        (fun nc2 p => aset p (ncGet nc2 p + 1) nc2) nc) nc) x =
      ncGet nc x + (childCount gp x entries : Int) := by
  intro entries
  induction entries with
  | nil => intro nc; simp [childCount]
  | cons e rest ih =>
    intro nc
    simp only [List.foldl_cons]
    rw [ih, ncGet_inc_fold, childCount_cons]
    push_cast
    ring

/-- Correctness of `build_nc`. -/
theorem build_nc_correct (gp : Commit → List Nat) (x : Nat)
    (entries : List WalkEntry) :
    ncGet (build_nc gp entries) x = (childCount gp x entries : Int) := by
  unfold build_nc
  rw [build_nc_fold]
  simp [ncGet, alookup]

/-- Weights are at most two. -/
theorem sum_map_le_two {α : Type} (f : α → Nat) :
    ∀ (l : List α), (∀ x ∈ l, f x ≤ 2) → (l.map f).sum ≤ 2 * l.length := by
  intro l
  induction l with
  | nil => intro _; simp
  | cons a r ih =>
    intro h
    simp only [List.map_cons, List.sum_cons, List.length_cons]
    have h1 := h a (List.mem_cons_self a r)
    have h2 := ih (fun x hx => h x (List.mem_cons_of_mem a hx))
    omega

/-- `_topo_reorder` output is in children-before-parents order whenever the
input entries carry distinct ids. -/
theorem topo_reorder_pairwise (gp : Commit → List Nat)
    (entries : List WalkEntry) (out : List WalkEntry)
    (hN : (entries.map (fun e => e.commit.id)).Nodup)
    (h : topo_reorder gp entries = .ok out) :
    out.Pairwise (fun a b => a.commit.id ∉ gp b.commit) := by
  unfold topo_reorder at h
  have hInv : topoInv gp entries [] (build_nc gp entries) := by
    refine ⟨?_, ?_, ?_, ?_⟩
    · intro x
      simp only [pvals, List.map_nil, List.append_nil]
      exact build_nc_correct gp x entries
    · intro kv hkv
      cases hkv
    · simp
    · simpa [pvals] using hN
  have hJ : topoJ [] (build_nc gp entries) := by
    intro kv hkv
    cases hkv
  exact (topo_loop_pairwise gp _ entries [] (build_nc gp entries) out
    hInv hJ h).1

/-- `_topo_reorder` loses no entries: with distinct ids and an acyclic
parent relation, the output has exactly the input length (and in particular
the fixed fuel `2n + 2` of the model suffices). -/
theorem topo_reorder_length (gp : Commit → List Nat) (rank : Nat → Nat)
    (entries : List WalkEntry)
    (hN : (entries.map (fun e => e.commit.id)).Nodup)
    (hRk : topoRk gp rank entries) :
    ∃ out, topo_reorder gp entries = .ok out ∧
      out.length = entries.length := by
  unfold topo_reorder
  have hInv : topoInv gp entries [] (build_nc gp entries) := by
    refine ⟨?_, ?_, ?_, ?_⟩
    · intro x
      simp only [pvals, List.map_nil, List.append_nil]
      exact build_nc_correct gp x entries
    · intro kv hkv
      cases hkv
    · simp
    · simpa [pvals] using hN
  have hJ : topoJ [] (build_nc gp entries) := by
    intro kv hkv
    cases hkv
  have hRk2 : topoRk gp rank (entries ++ pvals []) := by
    simpa [pvals] using hRk
  have hsum : (entries.map (topoWeight (build_nc gp entries))).sum ≤
      2 * entries.length := by
    refine sum_map_le_two _ entries ?_
    intro x _
    unfold topoWeight
    split <;> omega
  have hmu : topoMu entries [] (build_nc gp entries) + 1 ≤
      2 * entries.length + 2 := by
    simp only [topoMu, List.length_nil]
    omega
  obtain ⟨out, hout, hlen⟩ := topo_loop_length gp rank
    (2 * entries.length + 2) entries [] (build_nc gp entries)
    hInv hJ hRk2 hmu
  exact ⟨out, hout, by simpa using hlen⟩

/-! ### Queue residency and freshness -/

/-- Members survive a set insertion. -/
theorem insertSet_sup {α : Type} [DecidableEq α] (a : α) (l : List α) :
    ∀ x ∈ l, x ∈ insertSet a l := by
  intro x hx
  unfold insertSet
  split
  · exact hx
  · exact List.mem_cons_of_mem a hx

/-- The inserted element is a member. -/
theorem insertSet_self {α : Type} [DecidableEq α] (a : α) (l : List α) :
    a ∈ insertSet a l := by
  unfold insertSet
  split
  · assumption
  · exact List.mem_cons_self a l

/-- Membership in an insertion comes from the element or the old set. -/
theorem insertSet_cases {α : Type} [DecidableEq α] (a : α) (l : List α)
    (x : α) (h : x ∈ insertSet a l) : x = a ∨ x ∈ l := by
  unfold insertSet at h
  split at h
  · exact Or.inr h
  · exact (List.mem_cons.mp h).imp_left id

/-- Membership after a heap insertion. -/
theorem pqInsert_mem (x : Int × Commit) :
    ∀ (l : List (Int × Commit)) (kc : Int × Commit),
    kc ∈ pqInsert x l → kc = x ∨ kc ∈ l := by
  intro l
  induction l with
  | nil => intro kc h; simpa [pqInsert] using h
  | cons y ys ih =>
    intro kc h
    simp only [pqInsert] at h
    split at h
    · exact (List.mem_cons.mp h).imp_right id
    · rcases List.mem_cons.mp h with rfl | h2
      · exact Or.inr (List.mem_cons_self _ _)
      · exact (ih kc h2).imp_right (List.mem_cons_of_mem y)

/-- `_push` keeps residency, never touches `done`, and never shrinks the
other sets. -/
theorem queue_push_inv (store : Store) (st : QState) (i : Nat) (st1 : QState)
    (hwf : storeWF store) (hq : qinv store st)
    (h : queue_push store st i = .ok st1) :
    qinv store st1 ∧ st1.done = st.done := by
  unfold queue_push at h
  split at h
  · cases h
  · next c hl =>
    have hcid : c.id = i := hwf (i, c) (alookup_mem i store c hl)
    by_cases hc : i ∉ st.pq_set ∧ i ∉ st.done
    · rw [if_pos hc] at h
      cases h
      constructor
      · intro kc hkc
        rcases pqInsert_mem _ _ _ hkc with rfl | h2
        · show alookup c.id store = some c
          rw [hcid]
          exact hl
        · exact hq kc h2
      · rfl
    · rw [if_neg hc] at h
      cases h
      exact ⟨hq, rfl⟩

/-- Folding `_push` over a parent list keeps residency and `done`. -/
theorem foldlM_push_inv (store : Store) (hwf : storeWF store) :
    ∀ (l : List Nat) (st st1 : QState), qinv store st →
    l.foldlM (queue_push store) st = .ok st1 →
    qinv store st1 ∧ st1.done = st.done := by
  intro l
  induction l with
  | nil =>
    intro st st1 hq h
    cases h
    exact ⟨hq, rfl⟩
  | cons x xs ih =>
    intro st st1 hq h
    rw [List.foldlM_cons] at h
    cases hp : queue_push store st x with
    | error e =>
      rw [hp] at h
      cases h
    | ok st2 =>
      rw [hp] at h
      obtain ⟨hq2, hd2⟩ := queue_push_inv store st x st2 hwf hq hp
      obtain ⟨hq3, hd3⟩ := ih st2 st1 hq2 h
      exact ⟨hq3, hd3.trans hd2⟩

/-- `_exclude_parents` only rewrites the excluded set. -/
theorem exclude_parents_shape (store : Store) (gp : Commit → List Nat)
    (st : QState) (c : Commit) (st1 : QState)
    (h : exclude_parents store gp st c = .ok st1) :
    ∃ ex, st1 = { st with excluded := ex } := by
  unfold exclude_parents at h
  split at h
  · cases h
  · cases h
    exact ⟨_, rfl⟩

/-- One queue step keeps residency, grows `done` monotonically, and yields
only fresh, store-resident commits, which it marks done. -/
theorem queue_next_loop_inv (store : Store) (gp : Commit → List Nat)
    (hwf : storeWF store) :
    ∀ (fuel : Nat) (st st1 : QState) (r : Option WalkEntry),
    qinv store st →
    queue_next_loop store gp fuel st = .ok (st1, r) →
    qinv store st1 ∧ (∀ i ∈ st.done, i ∈ st1.done) ∧
    (∀ e, r = some e → alookup e.commit.id store = some e.commit ∧
      e.commit.id ∈ st1.done ∧ e.commit.id ∉ st.done) := by
  intro fuel
  induction fuel with
  | zero => intro st st1 r _ h; cases h
  | succ fuel ih =>
    intro st st1 r hq h
    simp only [queue_next_loop] at h
    split at h
    · cases h
      exact ⟨fun kc hkc => hq kc hkc, fun i hi => hi, fun e he => by cases he⟩
    · next k commit pqRest hpq =>
      have hres : alookup commit.id store = some commit :=
        hq (k, commit) (by rw [hpq]; exact List.mem_cons_self _ _)
      have hq1 : ∀ (pqs : List Nat),
          qinv store { st with pq := pqRest, pq_set := pqs } := by
        intro pqs kc hkc
        exact hq kc (by rw [hpq]; exact List.mem_cons_of_mem _ hkc)
      split at h
      · cases h
      · next pqs hrem =>
        split at h
        · next hdone =>
          obtain ⟨a, b, c⟩ := ih _ _ _ (hq1 pqs) h
          exact ⟨a, b, c⟩
        · next hdone =>
          split at h
          · cases h
          · next st3 hfold =>
            obtain ⟨hq3, hd3⟩ :=
              foldlM_push_inv store hwf _ _ _ (by exact hq1 pqs) hfold
            split at h
            · cases h
            · next st4 hexq =>
              have hshape : st4.pq = st3.pq ∧ st4.done = st3.done := by
                split at hexq
                · obtain ⟨ex, rfl⟩ := exclude_parents_shape _ _ _ _ _ hexq
                  exact ⟨rfl, rfl⟩
                · cases hexq
                  exact ⟨rfl, rfl⟩
              have hq4 : qinv store st4 := by
                intro kc hkc
                exact hq3 kc (hshape.1 ▸ hkc)
              have hd4 : st4.done = insertSet commit.id st.done := by
                rw [hshape.2, hd3]
              have hyield : ∀ (st5 : QState),
                  (Except.ok (st5, some (⟨commit⟩ : WalkEntry)) :
                    Except WalkErr (QState × Option WalkEntry)) =
                    .ok (st1, r) →
                  st5.pq = st4.pq → st5.done = st4.done →
                  qinv store st1 ∧ (∀ i ∈ st.done, i ∈ st1.done) ∧
                  (∀ e, r = some e →
                    alookup e.commit.id store = some e.commit ∧
                    e.commit.id ∈ st1.done ∧ e.commit.id ∉ st.done) := by
                intro st5 hh hpq5 hdone5
                cases hh
                refine ⟨?_, ?_, ?_⟩
                · intro kc hkc
                  rw [hpq5, hshape.1] at hkc
                  exact hq3 kc hkc
                · intro i hi
                  rw [hdone5, hd4]
                  exact insertSet_sup _ _ _ hi
                · intro e he
                  cases he
                  refine ⟨hres, ?_, hdone⟩
                  rw [hdone5, hd4]
                  exact insertSet_self _ _
              have hloop : ∀ (st5 : QState),
                  queue_next_loop store gp fuel st5 = .ok (st1, r) →
                  st5.pq = st4.pq → st5.done = st4.done →
                  qinv store st1 ∧ (∀ i ∈ st.done, i ∈ st1.done) ∧
                  (∀ e, r = some e →
                    alookup e.commit.id store = some e.commit ∧
                    e.commit.id ∈ st1.done ∧ e.commit.id ∉ st.done) := by
                intro st5 hh hpq5 hdone5
                have hq5 : qinv store st5 := by
                  intro kc hkc
                  rw [hpq5, hshape.1] at hkc
                  exact hq3 kc hkc
                obtain ⟨a, b, c⟩ := ih _ _ _ hq5 hh
                refine ⟨a, ?_, ?_⟩
                · intro i hi
                  refine b i ?_
                  rw [hdone5, hd4]
                  exact insertSet_sup _ _ _ hi
                · intro e he
                  obtain ⟨c1, c2, c3⟩ := c e he
                  refine ⟨c1, c2, ?_⟩
                  intro hmem
                  refine c3 ?_
                  rw [hdone5, hd4]
                  exact insertSet_sup _ _ _ hmem
              have hnone : ∀ (st5 : QState),
                  (Except.ok (st5, (none : Option WalkEntry)) :
                    Except WalkErr (QState × Option WalkEntry)) =
                    .ok (st1, r) →
                  st5.pq = st4.pq → st5.done = st4.done →
                  qinv store st1 ∧ (∀ i ∈ st.done, i ∈ st1.done) ∧
                  (∀ e, r = some e →
                    alookup e.commit.id store = some e.commit ∧
                    e.commit.id ∈ st1.done ∧ e.commit.id ∉ st.done) := by
                intro st5 hh hpq5 hdone5
                cases hh
                refine ⟨?_, ?_, fun e he => by cases he⟩
                · intro kc hkc
                  rw [hpq5, hshape.1] at hkc
                  exact hq3 kc hkc
                · intro i hi
                  rw [hdone5, hd4]
                  exact insertSet_sup _ _ _ hi
              clear hq4
              repeat' (first
                | exact hloop _ h rfl rfl
                | exact hyield _ h rfl rfl
                | exact hnone _ h rfl rfl
                | split at h)

/-- `queue_next` enjoys the same invariant as its loop; a finished queue
yields nothing and changes nothing. -/
theorem queue_next_inv (store : Store) (gp : Commit → List Nat)
    (hwf : storeWF store) (st st1 : QState) (r : Option WalkEntry)
    (hq : qinv store st)
    (h : queue_next store gp st = .ok (st1, r)) :
    qinv store st1 ∧ (∀ i ∈ st.done, i ∈ st1.done) ∧
    (∀ e, r = some e → alookup e.commit.id store = some e.commit ∧
      e.commit.id ∈ st1.done ∧ e.commit.id ∉ st.done) := by
  unfold queue_next at h
  split at h
  · cases h
    exact ⟨hq, fun i hi => hi, fun e he => by cases he⟩
  · exact queue_next_loop_inv store gp hwf _ st st1 r hq h

/-- One `_next` call keeps the walker invariant, grows `done`, never lets a
done-and-unbuffered id back into the buffer or the output, and yields only
store-resident entries whose id is recorded done and absent from the
remaining buffer. -/
theorem walker_next_loop_inv (store : Store) (dctx : DiffCtx)
    (so : StreamOpts) (maxE : Option Int) (hwf : storeWF store) :
    ∀ (fuel : Nat) (w w1 : WState) (r : Option WalkEntry),
    winv store w →
    walker_next_loop store dctx so maxE fuel w = .ok (w1, r) →
    winv store w1 ∧ (∀ i ∈ w.q.done, i ∈ w1.q.done) ∧
    (∀ x, x ∈ w.q.done → x ∉ bufIds w →
      x ∉ bufIds w1 ∧ ∀ e, r = some e → e.commit.id ≠ x) ∧
    (∀ e, r = some e → alookup e.commit.id store = some e.commit ∧
      e.commit.id ∈ w1.q.done ∧ e.commit.id ∉ bufIds w1) := by
  intro fuel
  induction fuel with
  | zero => intro w w1 r _ h; cases h
  | succ fuel ih =>
    intro w w1 r hw h
    obtain ⟨hwq, hwbuf, hwnd⟩ := hw
    simp only [walker_next_loop] at h
    split at h
    · cases h
      exact ⟨⟨hwq, hwbuf, hwnd⟩, fun i hi => hi,
        fun x hx1 hx2 => ⟨hx2, fun e he => by cases he⟩,
        fun e he => by cases he⟩
    · split at h
      · cases h
      · next q1 r2 hqn =>
        obtain ⟨hq1, hdm, hfr⟩ :=
          queue_next_inv store so.get_parents hwf w.q q1 r2 hwq hqn
        cases r2 with
        | none =>
          simp only [Option.isNone_none, Bool.true_or, eq_self_iff_true,
            if_true] at h
          split at h
          · next hbq =>
            cases h
            refine ⟨⟨hq1, ?_, hwnd⟩, hdm, ?_, fun e he => by cases he⟩
            · intro e he
              obtain ⟨h1, h2⟩ := hwbuf e he
              exact ⟨h1, hdm _ h2⟩
            · intro x hx1 hx2
              exact ⟨hx2, fun e he => by cases he⟩
          · next e rest hbq =>
            split at h
            · cases h
            · next b ps1 hsr =>
              have hein : e ∈ w.out_queue := by
                rw [hbq]; exact List.mem_cons_self _ _
              obtain ⟨heres, hedone⟩ := hwbuf e hein
              have hnd2 : e.commit.id ∉ rest.map (fun x => x.commit.id) ∧
                  (rest.map (fun x => x.commit.id)).Nodup := by
                have := hwnd
                rw [hbq] at this
                simpa using this
              have hrsub : ∀ y ∈ rest, y ∈ w.out_queue := by
                intro y hy
                rw [hbq]
                exact List.mem_cons_of_mem _ hy
              have hw3 : winv store
                  { q := q1, out_queue := rest,
                    num_entries := w.num_entries, paths := ps1 } := by
                refine ⟨hq1, ?_, hnd2.2⟩
                intro y hy
                obtain ⟨h1, h2⟩ := hwbuf y (hrsub y hy)
                exact ⟨h1, hdm _ h2⟩
              have hav2 : ∀ x, x ∈ w.q.done → x ∉ bufIds w →
                  x ∈ q1.done ∧
                  x ∉ rest.map (fun y => y.commit.id) ∧ e.commit.id ≠ x := by
                intro x hx1 hx2
                rw [bufIds, hbq] at hx2
                simp only [List.map_cons, List.mem_cons, not_or] at hx2
                exact ⟨hdm _ hx1, hx2.2, fun hc => hx2.1 hc.symm⟩
              split at h
              · cases h
                refine ⟨⟨hq1, hw3.2.1, hnd2.2⟩, hdm, ?_, ?_⟩
                · intro x hx1 hx2
                  obtain ⟨_, hb2, hb3⟩ := hav2 x hx1 hx2
                  refine ⟨hb2, ?_⟩
                  intro e2 he2
                  cases he2
                  exact hb3
                · intro e2 he2
                  cases he2
                  exact ⟨heres, hdm _ hedone, hnd2.1⟩
              · obtain ⟨a1, a2, a3, a4⟩ := ih _ _ _ hw3 h
                refine ⟨a1, fun i hi => a2 i (hdm i hi), ?_, a4⟩
                intro x hx1 hx2
                obtain ⟨hb1, hb2, _⟩ := hav2 x hx1 hx2
                exact a3 x hb1 hb2
        | some e0 =>
          obtain ⟨he0res, he0done, he0fresh⟩ := hfr e0 rfl
          have hsub2 : ∀ y, y ∈ w.out_queue ++ [e0] →
              alookup y.commit.id store = some y.commit ∧
              y.commit.id ∈ q1.done := by
            intro y hy
            rcases List.mem_append.mp hy with hy | hy
            · obtain ⟨h1, h2⟩ := hwbuf y hy
              exact ⟨h1, hdm _ h2⟩
            · rcases List.mem_singleton.mp hy with rfl
              exact ⟨he0res, he0done⟩
          have hnd2 : ((w.out_queue ++ [e0]).map
              (fun y => y.commit.id)).Nodup := by
            rw [List.map_append]
            refine List.Nodup.append hwnd (by simp) ?_
            intro a ha hb
            simp only [List.map_cons, List.map_nil, List.mem_singleton] at hb
            subst hb
            rcases List.mem_map.mp ha with ⟨y, hy, hid⟩
            exact he0fresh (hid ▸ (hwbuf y hy).2)
          have hav2 : ∀ x, x ∈ w.q.done → x ∉ bufIds w →
              x ∉ (w.out_queue ++ [e0]).map (fun y => y.commit.id) := by
            intro x hx1 hx2 hc
            rw [List.map_append] at hc
            rcases List.mem_append.mp hc with hc | hc
            · exact hx2 hc
            · simp only [List.map_cons, List.map_nil,
                List.mem_singleton] at hc
              exact he0fresh (hc ▸ hx1)
          have hw2 : winv store
              { q := q1, out_queue := w.out_queue ++ [e0],
                num_entries := w.num_entries, paths := w.paths } :=
            ⟨hq1, hsub2, hnd2⟩
          simp only [Option.isNone_some, Bool.false_or] at h
          split at h
          · split at h
            · next hbq =>
              exact absurd hbq (by simp)
            · next e rest hbq =>
              split at h
              · cases h
              · next b ps1 hsr =>
                have hein : e ∈ w.out_queue ++ [e0] := by
                  rw [hbq]; exact List.mem_cons_self _ _
                obtain ⟨heres, hedone⟩ := hsub2 e hein
                have hnd3 : e.commit.id ∉ rest.map (fun x => x.commit.id) ∧
                    (rest.map (fun x => x.commit.id)).Nodup := by
                  have := hnd2
                  rw [hbq] at this
                  simpa using this
                have hrsub : ∀ y ∈ rest, y ∈ w.out_queue ++ [e0] := by
                  intro y hy
                  rw [hbq]
                  exact List.mem_cons_of_mem _ hy
                have hw3 : winv store
                    { q := q1, out_queue := rest,
                      num_entries := w.num_entries, paths := ps1 } := by
                  refine ⟨hq1, ?_, hnd3.2⟩
                  intro y hy
                  exact hsub2 y (hrsub y hy)
                have hav3 : ∀ x, x ∈ w.q.done → x ∉ bufIds w →
                    x ∈ q1.done ∧
                    x ∉ rest.map (fun y => y.commit.id) ∧
                    e.commit.id ≠ x := by
                  intro x hx1 hx2
                  have := hav2 x hx1 hx2
                  rw [hbq] at this
                  simp only [List.map_cons, List.mem_cons, not_or] at this
                  exact ⟨hdm _ hx1, this.2, fun hc => this.1 hc.symm⟩
                split at h
                · cases h
                  refine ⟨⟨hq1, hw3.2.1, hnd3.2⟩, hdm, ?_, ?_⟩
                  · intro x hx1 hx2
                    obtain ⟨_, hb2, hb3⟩ := hav3 x hx1 hx2
                    refine ⟨hb2, ?_⟩
                    intro e2 he2
                    cases he2
                    exact hb3
                  · intro e2 he2
                    cases he2
                    exact ⟨heres, hedone, hnd3.1⟩
                · obtain ⟨a1, a2, a3, a4⟩ := ih _ _ _ hw3 h
                  refine ⟨a1, fun i hi => a2 i (hdm i hi), ?_, a4⟩
                  intro x hx1 hx2
                  obtain ⟨hb1, hb2, _⟩ := hav3 x hx1 hx2
                  exact a3 x hb1 hb2
          · obtain ⟨a1, a2, a3, a4⟩ := ih _ _ _ hw2 h
            refine ⟨a1, fun i hi => a2 i (hdm i hi), ?_, a4⟩
            intro x hx1 hx2
            exact a3 x (hdm x hx1) (hav2 x hx1 hx2)

/-- An id that is recorded done and absent from the buffer never appears in
the remaining stream. -/
theorem stream_loop_avoid (store : Store) (dctx : DiffCtx) (so : StreamOpts)
    (maxE : Option Int) (hwf : storeWF store) :
    ∀ (fuel : Nat) (w : WState) (l : List WalkEntry) (x : Nat),
    winv store w → x ∈ w.q.done → x ∉ bufIds w →
    stream_loop store dctx so maxE fuel w = .ok l →
    ∀ y ∈ l, y.commit.id ≠ x := by
  intro fuel
  induction fuel with
  | zero => intro w l x _ _ _ h; cases h
  | succ fuel ih =>
    intro w l x hw hx1 hx2 h
    simp only [stream_loop] at h
    split at h
    · cases h
    · cases h
      intro y hy
      cases hy
    · next w1 e hwn =>
      have hwn2 : walker_next_loop store dctx so maxE (wfuel store w) w =
          .ok (w1, some e) := hwn
      obtain ⟨hw1, hdm, hav, _⟩ :=
        walker_next_loop_inv store dctx so maxE hwf _ w w1 (some e) hw hwn2
      obtain ⟨hb1, hb2⟩ := hav x hx1 hx2
      split at h
      · cases h
      · next rest hrest =>
        cases h
        intro y hy
        rcases List.mem_cons.mp hy with rfl | hy
        · exact hb2 y rfl
        · exact ih w1 rest x hw1 (hdm x hx1) hb1 hrest y hy

/-- The raw stream of a walk has pairwise-distinct commit ids, and every
streamed entry is the store's commit for its id. -/
theorem stream_loop_inv (store : Store) (dctx : DiffCtx) (so : StreamOpts)
    (maxE : Option Int) (hwf : storeWF store) :
    ∀ (fuel : Nat) (w : WState) (l : List WalkEntry),
    winv store w →
    stream_loop store dctx so maxE fuel w = .ok l →
    (l.map (fun e => e.commit.id)).Nodup ∧
    (∀ e ∈ l, alookup e.commit.id store = some e.commit) := by
  intro fuel
  induction fuel with
  | zero => intro w l _ h; cases h
  | succ fuel ih =>
    intro w l hw h
    simp only [stream_loop] at h
    split at h
    · cases h
    · cases h
      exact ⟨List.nodup_nil, fun e he => by cases he⟩
    · next w1 e hwn =>
      have hwn2 : walker_next_loop store dctx so maxE (wfuel store w) w =
          .ok (w1, some e) := hwn
      obtain ⟨hw1, hdm, hav, hyld⟩ :=
        walker_next_loop_inv store dctx so maxE hwf _ w w1 (some e) hw hwn2
      obtain ⟨heres, hedone, hebuf⟩ := hyld e rfl
      split at h
      · cases h
      · next rest hrest =>
        cases h
        obtain ⟨hndr, hresr⟩ := ih w1 rest hw1 hrest
        refine ⟨?_, ?_⟩
        · rw [List.map_cons]
          refine List.nodup_cons.mpr ⟨?_, hndr⟩
          intro hc
          rcases List.mem_map.mp hc with ⟨y, hy, hid⟩
          exact stream_loop_avoid store dctx so maxE hwf fuel w1 rest
            e.commit.id hw1 hedone hebuf hrest y hy hid
        · intro y hy
          rcases List.mem_cons.mp hy with rfl | hy
          · exact heres
          · exact hresr y hy

/-- A freshly constructed walker satisfies the residency invariant. -/
theorem walker_init_winv (store : Store) (o : WalkerOpts) (w : WState)
    (hwf : storeWF store) (h : walker_init store o = .ok w) :
    winv store w := by
  unfold walker_init at h
  split at h
  · cases h
  · split at h
    · cases h
    · next q hq =>
      cases h
      refine ⟨?_, ?_, ?_⟩
      · unfold queue_init at hq
        obtain ⟨hq2, _⟩ :=
          foldlM_push_inv store hwf _ _ _ (fun kc hkc => by cases hkc) hq
        exact hq2
      · intro e he
        cases he
      · exact List.nodup_nil

/-- C5 counterexample: with `order=TOPO` and path filter `{f}`, the walk of
`c5store` yields commit 1 before commit 3, although 3 is a transitive
descendant of 1 (3's parent is the store commit 2, whose parent is 1): the
claim's guarantee only holds for direct parent/child pairs of the yielded
entries, not for all descendants, because the intermediate commit 2 is
filtered out of the output. -/
theorem c5_counterexample :
    walker_run c5store c5dctx c5opts =
      .ok [⟨mkC 1 [] 100⟩, ⟨mkC 3 [2] 50⟩] ∧
    (mkC 3 [2] 50).parents = [2] ∧ (mkC 2 [1] 70).parents = [1] ∧
    alookup 2 c5store = some (mkC 2 [1] 70) :=
  ⟨rfl, rfl, rfl, rfl⟩

/-- C5 (amended): in a forward (`reverse=False`) walk with `order=TOPO`
over a well-keyed store, no yielded commit appears before one of its direct
children that is yielded in the same walk: whenever entry `a` precedes
entry `b` in the output, `a` is not a parent of `b`. -/
theorem c5_amended_children_after_parents (store : Store) (dctx : DiffCtx)
    (o : WalkerOpts) (l : List WalkEntry) (hwf : storeWF store)
    (hord : o.order = ORDER_TOPO) (hrev : o.reverse = false)
    (h : walker_run store dctx o = .ok l) :
    l.Pairwise (fun a b => a.commit.id ∉ o.get_parents b.commit) := by
  unfold walker_run at h
  split at h
  · cases h
  · next w hinit =>
    split at h
    · cases h
    · next s hs =>
      have hw := walker_init_winv store o w hwf hinit
      obtain ⟨hnd, _⟩ := stream_loop_inv store dctx (toStreamOpts o)
        o.max_entries hwf _ w s hw hs
      unfold walker_reorder at h
      split at h
      · cases h
      · next l1 hl1 =>
        cases h
        rw [if_pos hord] at hl1
        have hone : (if o.reverse = true then l1.reverse else l1) = l1 := by
          rw [hrev]
          simp
        rw [hone]
        exact topo_reorder_pairwise o.get_parents s l1 hnd hl1

/-- Witness for the amended C5 on the counterexample walk itself: the
output `[1, 3]` never puts a direct parent before its child. -/
theorem c5_witness :
    ([⟨mkC 1 [] 100⟩, ⟨mkC 3 [2] 50⟩] : List WalkEntry).Pairwise
      (fun a b => a.commit.id ∉ c5opts.get_parents b.commit) :=
  c5_amended_children_after_parents c5store c5dctx c5opts _
    (by unfold storeWF; decide) rfl rfl rfl

/-- While the cap is unhit, `_next` behaves exactly as with no cap: the
counter is constant within one call, so the guard never flips mid-call. -/
theorem walker_next_loop_cap_free (store : Store) (dctx : DiffCtx)
    (so : StreamOpts) (maxE : Option Int) :
    ∀ (fuel : Nat) (w : WState),
    capReached maxE w.num_entries = false →
    walker_next_loop store dctx so maxE fuel w =
      walker_next_loop store dctx so none fuel w := by
  intro fuel
  induction fuel with
  | zero => intro w _; rfl
  | succ fuel ih =>
    intro w hc
    have hc2 : capReached none w.num_entries = false := rfl
    simp only [walker_next_loop, hc, hc2, Bool.false_eq_true, if_false]
    repeat' (first | rfl | exact ih _ hc | split)

/-- A `_next` call that yields has incremented the counter exactly once. -/
theorem walker_next_loop_yield_count (store : Store) (dctx : DiffCtx)
    (so : StreamOpts) (maxE : Option Int) :
    ∀ (fuel : Nat) (w w1 : WState) (e : WalkEntry),
    walker_next_loop store dctx so maxE fuel w = .ok (w1, some e) →
    w1.num_entries = w.num_entries + 1 := by
  intro fuel
  induction fuel with
  | zero => intro w w1 e h; cases h
  | succ fuel ih =>
    intro w w1 e h
    simp only [walker_next_loop] at h
    repeat' (first
      | (have hy := ih _ _ _ h; exact hy)
      | (cases h; rfl)
      | (cases h; split <;> rfl)
      | (cases h)
      | split at h)

/-- With the cap already reached, `_next` returns `None` at once. -/
theorem walker_next_loop_capped (store : Store) (dctx : DiffCtx)
    (so : StreamOpts) (maxE : Option Int) (fuel : Nat) (w : WState)
    (hc : capReached maxE w.num_entries = true) :
    walker_next_loop store dctx so maxE (fuel + 1) w = .ok (w, none) := by
  simp only [walker_next_loop, hc, eq_self_iff_true, if_true]

/-- The capped stream is exactly the prefix of the uncapped stream that
fits in the remaining budget. -/
theorem stream_loop_take (store : Store) (dctx : DiffCtx) (so : StreamOpts)
    (k : Int) :
    ∀ (fuel : Nat) (w : WState) (l : List WalkEntry),
    stream_loop store dctx so none fuel w = .ok l →
    stream_loop store dctx so (some k) fuel w =
      .ok (l.take (k - w.num_entries).toNat) := by
  intro fuel
  induction fuel with
  | zero => intro w l h; cases h
  | succ fuel ih =>
    intro w l h
    by_cases hcap : capReached (some k) w.num_entries = true
    · have hkn : (k - w.num_entries).toNat = 0 := by
        have hk : k ≤ w.num_entries := by
          simpa [capReached, ge_iff_le] using hcap
        omega
      have hwn : walker_next store dctx so (some k) w = .ok (w, none) :=
        walker_next_loop_capped store dctx so (some k) _ w hcap
      simp only [stream_loop, hwn]
      rw [hkn, List.take_zero]
    · have hcap' : capReached (some k) w.num_entries = false := by
        revert hcap
        cases capReached (some k) w.num_entries <;> simp
      have heq : walker_next store dctx so (some k) w =
          walker_next store dctx so none w :=
        walker_next_loop_cap_free store dctx so (some k) _ w hcap'
      have hlt : w.num_entries < k := by
        simpa [capReached, ge_iff_le, not_le] using hcap'
      simp only [stream_loop] at h ⊢
      rw [heq]
      split at h
      · cases h
      · next w2 hwn =>
        cases h
        simp only [hwn, List.take_nil]
      · next w1 e hwn =>
        split at h
        · cases h
        · next rest hrest =>
          cases h
          have hnum : w1.num_entries = w.num_entries + 1 :=
            walker_next_loop_yield_count store dctx so none _ w w1 e hwn
          have harith : (k - w.num_entries).toNat =
              (k - w1.num_entries).toNat + 1 := by
            rw [hnum]
            omega
          simp only [hwn, ih w1 rest hrest]
          rw [harith, List.take_succ_cons]

/-- A successful reorder of a duplicate-free, acyclic stream preserves its
length. -/
theorem walker_reorder_len (o : WalkerOpts) (rank : Nat → Nat)
    (s l : List WalkEntry)
    (hN : (s.map (fun e => e.commit.id)).Nodup)
    (hRk : topoRk o.get_parents rank s)
    (h : walker_reorder o s = .ok l) : l.length = s.length := by
  unfold walker_reorder at h
  split at h
  · cases h
  · next l1 hl1 =>
    cases h
    have hlen1 : l1.length = s.length := by
      split at hl1
      · obtain ⟨out, hout, hlen⟩ :=
          topo_reorder_length o.get_parents rank s hN hRk
        rw [hl1] at hout
        cases hout
        exact hlen
      · cases hl1
        rfl
    split
    · rw [List.length_reverse]
      exact hlen1
    · exact hlen1

/-- Reordering a duplicate-free, acyclic stream always succeeds, with the
same length. -/
theorem walker_reorder_exists (o : WalkerOpts) (rank : Nat → Nat)
    (s : List WalkEntry)
    (hN : (s.map (fun e => e.commit.id)).Nodup)
    (hRk : topoRk o.get_parents rank s) :
    ∃ l, walker_reorder o s = .ok l ∧ l.length = s.length := by
  unfold walker_reorder
  by_cases hord : o.order = ORDER_TOPO
  · rw [if_pos hord]
    obtain ⟨out, hout, hlen⟩ := topo_reorder_length o.get_parents rank s hN hRk
    rw [hout]
    refine ⟨_, rfl, ?_⟩
    split
    · rw [List.length_reverse]
      exact hlen
    · exact hlen
  · rw [if_neg hord]
    refine ⟨_, rfl, ?_⟩
    split
    · rw [List.length_reverse]
    · rfl

/-- C7: over a well-keyed store with acyclic parents, if the uncapped walk
yields the list `l`, then the same walk with `max_entries = k` succeeds and
yields exactly `min k.toNat l.length` entries: never more than `k`, and
fewer only when the traversal itself has fewer entries. -/
theorem c7_max_entries_min (store : Store) (dctx : DiffCtx) (o : WalkerOpts)
    (k : Int) (rank : Nat → Nat) (l : List WalkEntry)
    (hwf : storeWF store)
    (hrk : ∀ p ∈ store, ∀ q ∈ o.get_parents p.2, rank q < rank p.1)
    (hunc : walker_run store dctx { o with max_entries := none } = .ok l) :
    ∃ l2, walker_run store dctx { o with max_entries := some k } = .ok l2 ∧
      l2.length = min k.toNat l.length := by
  unfold walker_run at hunc
  split at hunc
  · cases hunc
  · next w hinit =>
    split at hunc
    · cases hunc
    · next s hs =>
      have hw : winv store w :=
        walker_init_winv store { o with max_entries := none } w hwf hinit
      have hnum : w.num_entries = 0 := by
        unfold walker_init at hinit
        split at hinit
        · cases hinit
        · split at hinit
          · cases hinit
          · cases hinit
            rfl
      have hsl : stream_loop store dctx (toStreamOpts o) none
          (sfuel store w) w = .ok s := hs
      obtain ⟨hnd, hres⟩ := stream_loop_inv store dctx (toStreamOpts o) none
        hwf _ w s hw hsl
      have hcs : stream_loop store dctx (toStreamOpts o) (some k)
          (sfuel store w) w = .ok (s.take (k - w.num_entries).toNat) :=
        stream_loop_take store dctx (toStreamOpts o) k _ w s hsl
      rw [hnum, Int.sub_zero] at hcs
      have hRkS : topoRk o.get_parents rank s := by
        intro e he p hp
        exact hrk (e.commit.id, e.commit)
          (alookup_mem _ store _ (hres e he)) p hp
      have hRkT : topoRk o.get_parents rank (s.take k.toNat) := by
        intro e he p hp
        exact hRkS e (List.take_subset _ _ he) p hp
      have hndT : ((s.take k.toNat).map (fun e => e.commit.id)).Nodup := by
        rw [List.map_take]
        exact hnd.sublist (List.take_sublist _ _)
      have hlen : l.length = s.length :=
        walker_reorder_len { o with max_entries := none } rank s l hnd
          hRkS hunc
      obtain ⟨l2, hl2, hlen2⟩ :=
        walker_reorder_exists { o with max_entries := some k } rank
          (s.take k.toNat) hndT hRkT
      refine ⟨l2, ?_, ?_⟩
      · have hinit2 : walker_init store { o with max_entries := some k } =
            .ok w := hinit
        have hs2 : walker_stream store dctx
            (toStreamOpts { o with max_entries := some k }) (some k) w =
            .ok (s.take k.toNat) := hcs
        simp only [walker_run, hinit2, hs2]
        exact hl2
      · rw [hlen2, List.length_take, ← hlen]

/-- Witness for C7 on the three-commit linear walk: capping at 2 yields
exactly `min 2 3 = 2` entries. -/
theorem c7_witness :
    ∃ l2, walker_run linStore dctxEmpty
        { linOpts with max_entries := some 2 } = .ok l2 ∧
      l2.length = min (Int.toNat 2) 3 :=
  c7_max_entries_min linStore dctxEmpty linOpts 2 (fun i => i) _
    (by unfold storeWF; decide) (by decide) rfl

end DulwichWalk
